import Mathlib

/-!
# OpenFOAM: run-time selection, scalar matrix solve, processor-cyclic tags,
# carbon oxidation surface reaction and surface re-patching

A shallow embedding of the parts of the OpenFOAM sources that the properties
below are about.  Scalars are exact rationals, labels are integers or naturals,
a `Fatal*Error ... exit/abort` is the `error` branch of `Except`.  Library
pieces whose sources are outside this development (streams, hashing, the
linear solvers, the boundary-condition machinery) enter as parameters.
-/

set_option linter.unusedVariables false

namespace Foam

/-- A `word` is a string without white space; only equality of words is used. -/
abbrev word := String

/-- Result of a function that can end in a fatal error: the message that
was streamed into `FatalError`/`FatalIOError`, or the returned value. -/
abbrev Fatal (α : Type) := Except String α

/-! ## ddtScheme<Type>::New  (finiteVolume/ddtSchemes/ddtScheme/ddtScheme.C) -/

namespace ddtScheme

/-- The run-time selection table `IstreamConstructorTable`: constructor
functions keyed by scheme name. -/
abbrev IstreamConstructorTable (M S R : Type) := List (word × (M → S → R))

/-- The names registered in the table (`toc()`). -/
def toc {M S R : Type} (table : IstreamConstructorTable M S R) : List word :=
  table.map Prod.fst

/-- The lookup `IstreamConstructorTablePtr_->find(schemeName)`; `none` stands
for the `end()` iterator. -/
def find {M S R : Type} :
    IstreamConstructorTable M S R → word → Option (M → S → R)
  | [], _ => none
  | (k, c) :: rest, w => if k = w then some c else find rest w

/-- The selector `ddtScheme<Type>::New(mesh, schemeData)`.
`eof` is `Istream::eof()` and `readWord` is the `word(Istream&)` constructor,
which consumes one token and yields the word together with the rest of the
stream (or fails when the token is not a word). -/
def New {M S R : Type} (eof : S → Bool) (readWord : S → Fatal (word × S))
    (table : IstreamConstructorTable M S R) (mesh : M) (schemeData : S) :
    Fatal R :=
  if eof schemeData then
    .error "Ddt scheme not specified"
  else
    match readWord schemeData with
    | .error e => .error e
    | .ok (schemeName, rest) =>
      match find table schemeName with
      | none => .error ("Unknown ddt scheme " ++ schemeName)
      | some cstr => .ok (cstr mesh rest)

end ddtScheme

/-! ## fvMatrix<scalar>::solveSegregated and fvSolver::solve
(finiteVolume/fvMatrices/fvScalarMatrix/fvScalarMatrix.C) -/

/-- A volume field `VolField<scalar>`: name, internal values, boundary part. -/
structure VolField (F BF : Type) where
  name : word
  primitiveField : F
  boundaryField : BF

/-- The scalar `fvMatrix`: the `lduMatrix` coefficients (diagonal kept apart
from the off-diagonals), the source, the boundary coefficients and the field
it is the equation of. -/
structure fvMatrix (F L BC BF : Type) where
  diag : F
  offDiag : L
  source : F
  internalCoeffs : BC
  boundaryCoeffs : BC
  psi : VolField F BF

/-- The pieces used by the two solve functions whose sources lie elsewhere:
the boundary contributions of `fvMatrix`, the `lduMatrix::solver` interface,
the boundary-condition update, and `Residuals<scalar>::append`.
`P` is the `solverPerformance` record. -/
structure SolveOps (F L BC BF D Sol P Res : Type) where
  addBoundaryDiag : fvMatrix F L BC BF → F → F
  addBoundarySource : fvMatrix F L BC BF → F → F
  solverNew : word → fvMatrix F L BC BF → D → Fatal Sol
  solverRead : Sol → D → Fatal Sol
  solverSolve : Sol → fvMatrix F L BC BF → F → F → Fatal (P × F)
  correctBoundaryConditions : VolField F BF → VolField F BF
  residualsAppend : Res → P → Res

/-- What a solve leaves behind: the matrix (with its field) and the
`Residuals` object of the mesh. -/
structure SolveState (F L BC BF Res : Type) where
  mat : fvMatrix F L BC BF
  residuals : Res

/-- The part shared by the end of both functions, after the solver call has
produced `solverPerf` and the new internal field: restore the diagonal,
correct the boundary conditions, append to the residuals, return the record. -/
def finishSolve {F L BC BF D Sol P Res : Type}
    (ops : SolveOps F L BC BF D Sol P Res) (saveDiag : F)
    (st : SolveState F L BC BF Res) (solverPerf : P) (psiInternal : F) :
    P × SolveState F L BC BF Res :=
  let psi1 : VolField F BF := { st.mat.psi with primitiveField := psiInternal }
  let psi2 := ops.correctBoundaryConditions psi1
  (solverPerf,
    { mat := { st.mat with diag := saveDiag, psi := psi2 },
      residuals := ops.residualsAppend st.residuals solverPerf })

/-- The function `fvMatrix<scalar>::solveSegregated(solverControls)`. -/
def solveSegregated {F L BC BF D Sol P Res : Type}
    (ops : SolveOps F L BC BF D Sol P Res)
    (st : SolveState F L BC BF Res) (solverControls : D) :
    Fatal (P × SolveState F L BC BF Res) :=
  let saveDiag := st.mat.diag
  let mat1 := { st.mat with diag := ops.addBoundaryDiag st.mat st.mat.diag }
  let totalSource := ops.addBoundarySource mat1 mat1.source
  match ops.solverNew mat1.psi.name mat1 solverControls with
  | .error e => .error e
  | .ok solver =>
    match ops.solverSolve solver mat1 mat1.psi.primitiveField totalSource with
    | .error e => .error e
    | .ok (solverPerf, psiInternal) =>
      .ok (finishSolve ops saveDiag { st with mat := mat1 } solverPerf psiInternal)

/-- The function `fvMatrix<scalar>::fvSolver::solve(solverControls)`; `solver`
is the stored `solver_` of the `fvSolver`, `st.mat` its `fvMat_`. -/
def fvSolverSolve {F L BC BF D Sol P Res : Type}
    (ops : SolveOps F L BC BF D Sol P Res) (solver : Sol)
    (st : SolveState F L BC BF Res) (solverControls : D) :
    Fatal (P × Sol × SolveState F L BC BF Res) :=
  let saveDiag := st.mat.diag
  let mat1 := { st.mat with diag := ops.addBoundaryDiag st.mat st.mat.diag }
  let totalSource := ops.addBoundarySource mat1 mat1.source
  match ops.solverRead solver solverControls with
  | .error e => .error e
  | .ok solver1 =>
    match ops.solverSolve solver1 mat1 mat1.psi.primitiveField totalSource with
    | .error e => .error e
    | .ok (solverPerf, psiInternal) =>
      let r := finishSolve ops saveDiag { st with mat := mat1 } solverPerf psiInternal
      .ok (r.1, solver1, r.2)

/-! ## processorCyclicPolyPatch::tag
(OpenFOAM/meshes/polyMesh/polyPatches/constraint/processorCyclic/processorCyclicPolyPatch.C) -/

/-- What `tag()` uses of the cyclic patch a processor-cyclic patch refers to:
its own name and the name of its neighbour patch, `nbrPatch().name()`. -/
structure cyclicPolyPatch where
  name : word
  nbrPatchName : word
  deriving DecidableEq, Repr

/-- The data of a `processorCyclicPolyPatch` that `tag()` reads and writes:
the two processor numbers of the underlying `processorPolyPatch`, the cyclic
patch returned by `referPatch()`, and the mutable `tag_`. -/
structure processorCyclicPolyPatch where
  myProcNo : Int
  neighbProcNo : Int
  referPatch : cyclicPolyPatch
  tag_ : Int
  deriving DecidableEq, Repr

namespace processorCyclicPolyPatch

/-- The test `processorPolyPatch::owner()`: the side with the lower processor
number owns the connection. -/
def owner (pp : processorCyclicPolyPatch) : Bool :=
  decide (pp.myProcNo < pp.neighbProcNo)

/-- The value `Hash<word>()(name) % 32768u` as assigned to the `int` member
`tag_`; `Hash` is the (unsigned) string hash. -/
def hashTag (Hash : word → Nat) (pp : processorCyclicPolyPatch) : Int :=
  if pp.owner then
    ((Hash pp.referPatch.name % 32768 : Nat) : Int)
  else
    ((Hash pp.referPatch.nbrPatchName % 32768 : Nat) : Int)

/-- The member function `processorCyclicPolyPatch::tag()`.  It is `const` but
writes the mutable `tag_`, so the patch is returned along with the value.
`msgType` is the current `Pstream::msgType()`. -/
def tag (Hash : word → Nat) (msgType : Int) (pp : processorCyclicPolyPatch) :
    Fatal (Int × processorCyclicPolyPatch) :=
  if pp.tag_ = -1 then
    let t := hashTag Hash pp
    if t = msgType ∨ t = -1 then
      .error "Tag calculated from cyclic patch name is the same as the current message type or -1"
    else
      .ok (t, { pp with tag_ := t })
  else
    .ok (pp.tag_, pp)

end processorCyclicPolyPatch

/-! ## COxidationDiffusionLimitedRate
(lagrangian/parcel/submodels/ReactingMultiphase/SurfaceReactionModel) -/

/-- A `scalarField` addressed by label. -/
abbrev scalarField := Nat → ℚ

/-- The members of `COxidationDiffusionLimitedRate`. -/
structure COxidationDiffusionLimitedRate where
  Sb_ : ℚ
  D_ : ℚ
  CsLocalId_ : Nat
  O2GlobalId_ : Nat
  CO2GlobalId_ : Nat
  WC_ : ℚ
  WO2_ : ℚ
  HcCO2_ : ℚ

/-- What the constructor and `calculate` ask of the owner cloud: the species
ids of the composition model, the molecular weights and heats of formation of
the carrier species, the carrier mass-fraction fields `Y(i)[celli]`, and the
sensible enthalpy `hs(T)` of solid `i`. -/
structure CloudData where
  carrierIdO2 : Nat
  carrierIdCO2 : Nat
  idSolid : Nat
  localIdC : Nat
  WiValue : Nat → ℚ
  hfiValue : Nat → ℚ
  Y : Nat → Nat → ℚ
  hs : Nat → ℚ → ℚ

namespace COxidationDiffusionLimitedRate

/-- The constructor from a dictionary: `Sb` and `D` are the values looked up
in the coefficients dictionary. -/
def construct (Sb D : ℚ) (owner : CloudData) :
    Fatal COxidationDiffusionLimitedRate :=
  let O2GlobalId := owner.carrierIdO2
  let CO2GlobalId := owner.carrierIdCO2
  let CsLocalId := owner.localIdC
  let WO2 := owner.WiValue O2GlobalId
  let WCO2 := owner.WiValue CO2GlobalId
  let WC := WCO2 - WO2
  let HcCO2 := owner.hfiValue CO2GlobalId
  if Sb < 0 then
    .error "Stoichiometry of reaction, Sb, must be greater than zero"
  else
    .ok
      { Sb_ := Sb, D_ := D, CsLocalId_ := CsLocalId,
        O2GlobalId_ := O2GlobalId, CO2GlobalId_ := CO2GlobalId,
        WC_ := WC, WO2_ := WO2, HcCO2_ := HcCO2 }

/-- The result of `calculate`: the returned heat of reaction and the four
in/out mass-change fields. -/
structure Result where
  value : ℚ
  dMassGas : scalarField
  dMassLiquid : scalarField
  dMassSolid : scalarField
  dMassSRCarrier : scalarField

/-- The combustible fraction `fComb = YMixture[idSolid]*YSolid[CsLocalId_]`. -/
def fComb (m : COxidationDiffusionLimitedRate) (owner : CloudData)
    (YSolid YMixture : scalarField) : ℚ :=
  YMixture owner.idSolid * YSolid m.CsLocalId_

/-- The diffusion-limited change in C mass before limiting,
`4.0*pi*d*D_*YO2*Tc*rhoc/(Sb_*(T + Tc))*dt`.  The quotient is the exact one
for a divisor `Sb_*(T + Tc)` other than zero.  For a zero divisor the double
division of the source gives an infinity or a NaN, or traps, none of which is
an exact scalar; the value the rational quotient takes there stands for
nothing in the source, and what is proved of the value of the rate assumes a
non-zero divisor. -/
def dmCRate (m : COxidationDiffusionLimitedRate) (owner : CloudData)
    (pi dt : ℚ) (celli : Nat) (d T Tc rhoc : ℚ) : ℚ :=
  4 * pi * d * m.D_ * owner.Y m.O2GlobalId_ celli * Tc * rhoc
    / (m.Sb_ * (T + Tc)) * dt

/-- The member function `COxidationDiffusionLimitedRate::calculate`.  `pi` is
`mathematical::pi` and `small` the library constant of that name. -/
def calculate (m : COxidationDiffusionLimitedRate) (owner : CloudData)
    (pi small : ℚ) (dt : ℚ) (celli : Nat) (d T Tc pc rhoc mass : ℚ)
    (YGas YLiquid YSolid YMixture : scalarField) (N : ℚ)
    (dMassGas dMassLiquid dMassSolid dMassSRCarrier : scalarField) : Result :=
  let fComb := fComb m owner YSolid YMixture
  if fComb < small then
    { value := 0, dMassGas := dMassGas, dMassLiquid := dMassLiquid,
      dMassSolid := dMassSolid, dMassSRCarrier := dMassSRCarrier }
  else
    let dmC0 := dmCRate m owner pi dt celli d T Tc rhoc
    let dmC := min (mass * fComb) dmC0
    let dmO2 := dmC / m.WC_ * m.Sb_ * m.WO2_
    let dmCO2 := dmC + dmO2
    let dMassSolid1 :=
      Function.update dMassSolid m.CsLocalId_ (dMassSolid m.CsLocalId_ + dmC)
    let carrier1 :=
      Function.update dMassSRCarrier m.O2GlobalId_
        (dMassSRCarrier m.O2GlobalId_ - dmO2)
    let carrier2 :=
      Function.update carrier1 m.CO2GlobalId_ (carrier1 m.CO2GlobalId_ + dmCO2)
    let hsC := owner.hs m.CsLocalId_ T
    { value := dmC * hsC - dmCO2 * m.HcCO2_, dMassGas := dMassGas,
      dMassLiquid := dMassLiquid, dMassSolid := dMassSolid1,
      dMassSRCarrier := carrier2 }

/-- A carrier with O2 (species 0, W = 32) and CO2 (species 1, W = 44), one
fifth of O2 by mass everywhere; solids are phase 2 with C as local species 0.
Used to evaluate the model on concrete numbers. -/
def sampleCloud : CloudData :=
  { carrierIdO2 := 0, carrierIdCO2 := 1, idSolid := 2, localIdC := 0,
    WiValue := fun i => if i = 0 then 32 else 44,
    hfiValue := fun _ => -8940000,
    Y := fun _ _ => 1 / 5,
    hs := fun _ T => 710 * T }

/-- The model that `construct 1 (1/100000) sampleCloud` builds. -/
def sampleModel : COxidationDiffusionLimitedRate :=
  { Sb_ := 1, D_ := 1 / 100000, CsLocalId_ := 0, O2GlobalId_ := 0,
    CO2GlobalId_ := 1, WC_ := 12, WO2_ := 32, HcCO2_ := -8940000 }

/-- One call of `calculate` on `sampleModel`: a particle of diameter 1e-4 and
mass 1e-9 at 1500 K in a carrier at 1200 K, time step 1e-3, `pi` to fifteen
decimals, `small = 1e-15`, half of the solid being carbon, `YSolidMix` the
solid fraction of the particle, all mass-change fields zero on entry. -/
def sampleCalculate (YSolidMix : ℚ) : Result :=
  calculate sampleModel sampleCloud (3141592653589793 / 1000000000000000)
    (1 / 1000000000000000) (1 / 1000) 0 (1 / 10000) 1500 1200 100000 (1 / 4)
    (1 / 1000000000) (fun _ => 0) (fun _ => 0) (fun _ => 1 / 2)
    (fun _ => YSolidMix) 1 (fun _ => 0) (fun _ => 0) (fun _ => 0) (fun _ => 0)

end COxidationDiffusionLimitedRate

/-! ## repatchMesh  (polyTopoChange/repatchMesh/repatchMesh.C) -/

/-- A `vector` (also used for points) with exact components. -/
structure vector where
  x : ℚ
  y : ℚ
  z : ℚ
  deriving DecidableEq

/-- The inner product `a & b`. -/
def vector.dot (a b : vector) : ℚ :=
  a.x * b.x + a.y * b.y + a.z * b.z

/-- The conversion of a `scalar` to a `label` that C++ applies when a scalar
initialises a `label`: the fractional part is dropped (rounding towards
zero). -/
def scalarToLabel (s : ℚ) : Int :=
  Int.tdiv s.num (s.den : Int)

/-- The `pointIndexHit` returned by an octree search: whether something was
found, the nearest point, and the index of the found shape in the tree. -/
structure pointIndexHit where
  hit : Bool
  hitPoint : vector
  index : Nat

/-- A `repatchPatch`: a `patchIdentifier` (name, index, physical type) with a
size and a start face. -/
structure repatchPatch where
  name : word
  index : Int
  size : Int
  start : Int
  physicalType : word
  deriving DecidableEq, Repr

/-- The member `repatchPatch::clone()`: a new patch holding a copy of every
member. -/
def repatchPatch.clone (p : repatchPatch) : repatchPatch :=
  { name := p.name, index := p.index, size := p.size, start := p.start,
    physicalType := p.physicalType }

/-- A `PtrList<T>`: a list of pointers, each either null or set. -/
abbrev PtrList (α : Type) := List (Option α)

/-- A counted loop `for (label i = lo; i < hi; i++) body`. -/
def forLoop {σ : Type} (lo hi : Nat) (body : Nat → σ → σ) (s : σ) : σ :=
  (List.range' lo (hi - lo)).foldl (fun acc i => body i acc) s

namespace repatchMesh

/-- The constant `splitNormal_(3, 2, 1)`. -/
def splitNormal_ : vector := ⟨3, 2, 1⟩

/-- The constant `distanceTol_ = 1e-2`. -/
def distanceTol_ : ℚ := 1 / 100

/-- The first loop of `getNearest`: the faces of the surface are put in the
right bin when `sign > -1e-5` and in the left bin when `sign < 1e-5`, where
`sign` is the inner product of the face normal with `splitNormal_`.
Returns `(leftFaces, rightFaces)`. -/
def splitFaces (faceNormals : List vector) : List Nat × List Nat :=
  forLoop 0 faceNormals.length
    (fun bFacei bins =>
      let sign := vector.dot (faceNormals.getD bFacei ⟨0, 0, 0⟩) splitNormal_
      let right := if sign > -(1 / 100000) then bins.2 ++ [bFacei] else bins.2
      let left := if sign < 1 / 100000 then bins.1 ++ [bFacei] else bins.1
      (left, right))
    ([], [])

/-- The body of the search loop of `getNearest` for one boundary face of
`pMesh`, from the two search results on: the value stored into
`nearestBFacei[patchFacei]`.

`n` is the unit normal of the boundary face, `typDim` the largest distance of
one of its vertices from its centre `ctr`, `ns` the face normals of the
surface, `rightInfo`/`leftInfo` what `findNearest(ctr, searchDimSqr)` gave on
the right and the left tree, and `rightMag`/`leftMag` the scalars
`mag(rightInfo.hitPoint() - ctr)` and `mag(leftInfo.hitPoint() - ctr)`. -/
def nearestBFace (leftFaces rightFaces : List Nat) (ns : List vector)
    (n : vector) (typDim : ℚ) (rightInfo leftInfo : pointIndexHit)
    (rightMag leftMag : ℚ) : Int :=
  if rightInfo.hit then
    if leftInfo.hit then
      let rightFacei := rightFaces.getD rightInfo.index 0
      let leftFacei := leftFaces.getD leftInfo.index 0
      let rightDist : Int := scalarToLabel rightMag
      let leftDist : Int := scalarToLabel leftMag
      let rightSign := vector.dot n (ns.getD rightFacei ⟨0, 0, 0⟩)
      let leftSign := vector.dot n (ns.getD leftFacei ⟨0, 0, 0⟩)
      if (rightSign > 0 ∧ leftSign > 0) ∨ (rightSign < 0 ∧ leftSign < 0) then
        if rightDist < leftDist then (rightFacei : Int) else (leftFacei : Int)
      else
        let typDim1 := typDim * distanceTol_
        if (rightDist : ℚ) < typDim1 ∧ (leftDist : ℚ) < typDim1 then
          if rightSign > 0 then (rightFacei : Int) else (leftFacei : Int)
        else
          if rightDist < leftDist then (rightFacei : Int) else (leftFacei : Int)
    else
      ((rightFaces.getD rightInfo.index 0 : Nat) : Int)
  else
    if leftInfo.hit then
      ((leftFaces.getD leftInfo.index 0 : Nat) : Int)
    else
      -1

/-- What the search loop of `getNearest` has at hand for one boundary face of
`pMesh`: the unit normal `n`, the dimension `typDim`, the results of the two
octree searches and the distances of the two hit points from the face
centre. -/
structure faceSearch where
  n : vector
  typDim : ℚ
  rightInfo : pointIndexHit
  leftInfo : pointIndexHit
  rightMag : ℚ
  leftMag : ℚ

/-- The member function `repatchMesh::getNearest`: the surface faces are split
into the two bins, and for every boundary face of `pMesh` (one entry of
`searches`, which carries what the octrees built on the bins found for it) the
nearest surface face is chosen. -/
def getNearest (faceNormals : List vector) (searches : List faceSearch) :
    List Int :=
  let bins := splitFaces faceNormals
  searches.map (fun s =>
    nearestBFace bins.1 bins.2 faceNormals s.n s.typDim s.rightInfo s.leftInfo
      s.rightMag s.leftMag)

/-- The loop of `findIndex`, from position `patchi` on. -/
def findIndexFrom : List repatchPatch → word → Nat → Int
  | [], _, _ => -1
  | bp :: rest, patchName, patchi =>
    if bp.name = patchName then (patchi : Int)
    else findIndexFrom rest patchName (patchi + 1)

/-- The member function `repatchMesh::findIndex(patchName)`: the index of the
first patch of that name, or -1. -/
def findIndex (patches_ : List repatchPatch) (patchName : word) : Int :=
  findIndexFrom patches_ patchName 0

/-- The member function `repatchMesh::deletePatch(patchName)` on the patch
list `patches_`; the result is the new `patches_`. -/
def deletePatch (patches_ : List repatchPatch) (patchName : word) :
    Fatal (PtrList repatchPatch) :=
  let delPatchi := findIndex patches_ patchName
  if delPatchi = -1 then
    .error ("Can't find patch named " ++ patchName)
  else
    match patches_[delPatchi.toNat]? with
    | none => .error "index out of range"
    | some bp =>
      if bp.size ≠ 0 then
        .error ("Trying to delete non-empty patch " ++ patchName)
      else
        let newPatches : PtrList repatchPatch :=
          List.replicate (patches_.length - 1) none
        let newPatches1 :=
          forLoop 0 delPatchi.toNat
            (fun patchi acc =>
              acc.set patchi ((patches_[patchi]?).map repatchPatch.clone))
            newPatches
        let newPatches2 :=
          forLoop (delPatchi.toNat + 1) patches_.length
            (fun patchi acc =>
              acc.set (patchi - 1) ((patches_[patchi]?).map repatchPatch.clone))
            newPatches1
        .ok newPatches2

/-- The addressing of the surface mesh (`mesh()`, a primitive patch) that the
zone marking walks over: for every face its edges (`faceEdges()`), for every
edge its faces (`edgeFaces()`). -/
structure rMesh where
  faceEdges : List (List Nat)
  edgeFaces : List (List Nat)

/-- The number of faces, `mesh().size()`. -/
def rMesh.size (mesh : rMesh) : Nat := mesh.faceEdges.length

/-- The number of edges, `mesh().nEdges()`. -/
def rMesh.nEdges (mesh : rMesh) : Nat := mesh.edgeFaces.length

/-- The member function `repatchMesh::faceToEdge`: propagates the changed faces
to their edges.  Returns the edges changed and the updated `edgeRegion`.  The
fixed-size `changedEdges` with its fill counter, trimmed at the end, is the
growing list here. -/
def faceToEdge (mesh : rMesh) (regionEdge : List Bool) (region : Int)
    (changedFaces : List Nat) (edgeRegion : List Int) : List Nat × List Int :=
  changedFaces.foldl
    (fun st facei =>
      (mesh.faceEdges.getD facei []).foldl
        (fun st edgeI =>
          if (!regionEdge.getD edgeI false) && (st.2.getD edgeI 0 == -1) then
            (st.1 ++ [edgeI], st.2.set edgeI region)
          else st)
        st)
    ([], edgeRegion)

/-- The member function `repatchMesh::edgeToFace`, the reverse of `faceToEdge`:
gets edges and returns the faces changed, with the updated `faceRegion`. -/
def edgeToFace (mesh : rMesh) (region : Int) (changedEdges : List Nat)
    (faceRegion : List Int) : List Nat × List Int :=
  changedEdges.foldl
    (fun st edgeI =>
      (mesh.edgeFaces.getD edgeI []).foldl
        (fun st facei =>
          if st.2.getD facei 0 == -1 then
            (st.1 ++ [facei], st.2.set facei region)
          else st)
        st)
    ([], faceRegion)

/-- The `while (true)` loop of `markZone`, run for at most `fuel` rounds:
`none` when the rounds are used up before one of the two `break`s is reached,
otherwise the final `faceZone`. -/
def markZoneLoop (mesh : rMesh) (borderEdge : List Bool) (currentZone : Int) :
    Nat → List Nat → List Int → List Int → Option (List Int)
  | 0, _, _, _ => none
  | fuel + 1, changedFaces, faceZone, edgeZone =>
    let r := faceToEdge mesh borderEdge currentZone changedFaces edgeZone
    if r.1.isEmpty then
      some faceZone
    else
      let q := edgeToFace mesh currentZone r.1 faceZone
      if q.1.isEmpty then
        some q.2
      else
        markZoneLoop mesh borderEdge currentZone fuel q.1 q.2 r.2

/-- The member function `repatchMesh::markZone`: finds the area, starting at
`facei`, delimited by `borderEdge`; the result is the updated `faceZone`. -/
def markZone (fuel : Nat) (mesh : rMesh) (borderEdge : List Bool) (facei : Nat)
    (currentZone : Int) (faceZone : List Int) : Option (List Int) :=
  markZoneLoop mesh borderEdge currentZone fuel [facei]
    (faceZone.set facei currentZone) (List.replicate mesh.nEdges (-1))

/-- The resizing `List::setSize(n)`: the first `n` entries are kept, new
entries (here given the value `a`) are added at the end. -/
def setSize {α : Type} (l : List α) (n : Nat) (a : α) : List α :=
  l.take n ++ List.replicate (n - l.length) a

/-- The member function `repatchMesh::markFaces`; the result is the final
`visited`. -/
def markFaces (fuel : Nat) (mesh : rMesh) (protectedEdges : List Nat)
    (seedFacei : Nat) (visited : List Bool) : Option (List Bool) :=
  let protectedEdge :=
    protectedEdges.foldl (fun acc edgeI => acc.set edgeI true)
      (List.replicate mesh.nEdges false)
  let currentZone : List Int := List.replicate mesh.size (-1)
  match markZone fuel mesh protectedEdge seedFacei 0 currentZone with
  | none => none
  | some currentZone1 =>
    some
      (forLoop 0 currentZone1.length
        (fun facei acc => acc.set facei (decide (currentZone1.getD facei 0 = 0)))
        (setSize visited mesh.size false))

/-- The consistency of the addressing of a primitive patch: every edge of a
face is a valid edge label and lists that face among its faces, and the other
way round. -/
def rMesh.consistent (mesh : rMesh) : Prop :=
  (∀ f e, e ∈ mesh.faceEdges.getD f [] →
    e < mesh.nEdges ∧ f ∈ mesh.edgeFaces.getD e []) ∧
  (∀ e f, f ∈ mesh.edgeFaces.getD e [] →
    f < mesh.size ∧ e ∈ mesh.faceEdges.getD f [])

/-- The relation of the reachability statement: faces `f` and `g` share an
edge that is not in `protectedEdges`. -/
def sharesFreeEdge (mesh : rMesh) (protectedEdges : List Nat) (f g : Nat) : Prop :=
  ∃ e, e ∈ mesh.faceEdges.getD f [] ∧ e ∈ mesh.faceEdges.getD g [] ∧
    e ∉ protectedEdges

/-- The step of the marking loops: an entry that is -1 and passes the test `p`
is set to `r` and its label is recorded. -/
def markStep (p : Nat → Bool) (r : Int) (st : List Nat × List Int) (x : Nat) :
    List Nat × List Int :=
  if p x = true ∧ st.2[x]? = some (-1) then (st.1 ++ [x], st.2.set x r) else st

/-- One step of the walk of `markZone`: faces `f` and `g` have a common edge
that is not flagged in `borderEdge`. -/
def freeStep (mesh : rMesh) (borderEdge : List Bool) (f g : Nat) : Prop :=
  ∃ e, e ∈ mesh.faceEdges.getD f [] ∧ e ∈ mesh.faceEdges.getD g [] ∧
    borderEdge.getD e false = false

/-- The state of `markZone` at the top of its loop, for the zone value `r`
started at face `seed`: the seed is marked, every marked face can be walked to
from the seed, every marked edge is no border edge and has all its faces
marked, and every marked face outside `changedFaces` has all its non-border
edges marked. -/
structure MarkInv (mesh : rMesh) (borderEdge : List Bool) (seed : Nat) (r : Int)
    (faceZone edgeZone : List Int) (changedFaces : List Nat) : Prop where
  lenF : faceZone.length = mesh.size
  lenE : edgeZone.length = mesh.nEdges
  seedMarked : faceZone[seed]? = some r
  sound : ∀ f, faceZone[f]? = some r →
    Relation.ReflTransGen (freeStep mesh borderEdge) seed f
  edgeDone : ∀ e, edgeZone[e]? = some r →
    borderEdge.getD e false = false ∧
      ∀ g, g ∈ mesh.edgeFaces.getD e [] → faceZone[g]? = some r
  faceDone : ∀ f, faceZone[f]? = some r → f ∉ changedFaces →
    ∀ e, e ∈ mesh.faceEdges.getD f [] → borderEdge.getD e false = false →
      edgeZone[e]? = some r
  valF : ∀ (f : Nat) (v : Int), faceZone[f]? = some v → v = r ∨ v = -1
  valE : ∀ (e : Nat) (v : Int), edgeZone[e]? = some v → v = r ∨ v = -1
  changedMarked : ∀ f, f ∈ changedFaces → faceZone[f]? = some r

/-- The state `markZone` ends in: the seed is marked, every marked face can be
walked to from the seed, and the marked faces are closed under the walk. -/
structure MarkDone (mesh : rMesh) (borderEdge : List Bool) (seed : Nat) (r : Int)
    (faceZone : List Int) : Prop where
  lenF : faceZone.length = mesh.size
  seedMarked : faceZone[seed]? = some r
  sound : ∀ f, faceZone[f]? = some r →
    Relation.ReflTransGen (freeStep mesh borderEdge) seed f
  closed : ∀ f g, faceZone[f]? = some r → freeStep mesh borderEdge f g →
    faceZone[g]? = some r

/-- A strip of four triangles 0-1-2-3 joined by the edges 0, 1, 2 (edge `i`
between faces `i` and `i + 1`), with the outer edges 3 and 4 on faces 0 and 3. -/
def sampleStrip : rMesh :=
  { faceEdges := [[3, 0], [0, 1], [1, 2], [2, 4]],
    edgeFaces := [[0, 1], [1, 2], [2, 3], [0], [3]] }

end repatchMesh

/-! # Properties -/

/-! ## Run-time selection of the ddt scheme -/

namespace ddtScheme

/-- The lookup misses exactly the words that are not keys of the table. -/
theorem find_eq_none_iff {M S R : Type} (table : IstreamConstructorTable M S R)
    (w : word) : find table w = none ↔ w ∉ toc table := by
  induction table with
  | nil => simp [find, toc]
  | cons kc rest ih =>
    obtain ⟨k, c⟩ := kc
    have hcons : toc ((k, c) :: rest) = k :: toc rest := rfl
    by_cases hk : k = w
    · subst hk
      have hm : k ∈ toc ((k, c) :: rest) := by rw [hcons]; exact List.mem_cons_self _ _
      simp only [find, if_true]
      exact ⟨fun h => (by cases h), fun h => absurd hm h⟩
    · have hk2 : ¬ w = k := fun h => hk h.symm
      simp only [find, hk, if_false, hcons, List.mem_cons, hk2, false_or]
      exact ih

/-- A constructor returned by the lookup is registered under that word. -/
theorem find_some_mem {M S R : Type} (table : IstreamConstructorTable M S R)
    (w : word) (cstr : M → S → R) (h : find table w = some cstr) :
    (w, cstr) ∈ table := by
  induction table with
  | nil => simp [find] at h
  | cons kc rest ih =>
    obtain ⟨k, c⟩ := kc
    by_cases hk : k = w
    · simp only [find, hk, if_true, Option.some.injEq] at h
      subst hk
      subst h
      exact List.mem_cons_self _ _
    · simp [find, hk] at h
      exact List.mem_cons_of_mem _ (ih h)

/-- C1: `ddtScheme<Type>::New(mesh, schemeData)`: at end-of-file it fails with
'Ddt scheme not specified'; otherwise, when the word read first is not a key of
the constructor table it fails with 'Unknown ddt scheme', and when it is a key
it returns exactly the constructor registered under that word applied to the
mesh and the remainder of the stream. -/
theorem New_contract {M S R : Type} (eof : S → Bool)
    (readWord : S → Fatal (word × S)) (table : IstreamConstructorTable M S R)
    (mesh : M) (schemeData : S) :
    (eof schemeData = true →
      New eof readWord table mesh schemeData
        = .error "Ddt scheme not specified") ∧
    (eof schemeData = false →
      ∀ (schemeName : word) (rest : S),
        readWord schemeData = .ok (schemeName, rest) →
        (schemeName ∉ toc table →
          New eof readWord table mesh schemeData
            = .error ("Unknown ddt scheme " ++ schemeName)) ∧
        (schemeName ∈ toc table →
          ∃ cstr, find table schemeName = some cstr ∧
            (schemeName, cstr) ∈ table ∧
            New eof readWord table mesh schemeData = .ok (cstr mesh rest))) := by
  refine ⟨fun h => by simp [New, h], fun h schemeName rest hr => ⟨fun hk => ?_, fun hk => ?_⟩⟩
  · have hn := (find_eq_none_iff table schemeName).2 hk
    simp [New, h, hr, hn]
  · cases hf : find table schemeName with
    | none => exact absurd ((find_eq_none_iff table schemeName).1 hf) (not_not.2 hk)
    | some cstr =>
      exact ⟨cstr, rfl, find_some_mem table schemeName cstr hf, by simp [New, h, hr, hf]⟩

end ddtScheme

/-! ## The scalar matrix solve reports the solver's record -/

/-- C2: `fvMatrix<scalar>::solveSegregated` and `fvMatrix<scalar>::fvSolver::solve`
have no failure branch of their own, so none that depends on convergence: each
fails exactly when the underlying `lduMatrix` solver call (construction or
re-reading of controls, then `solve` on the internal field of psi and the source
plus boundary source) fails, and otherwise returns exactly the
`solverPerformance` record of that `solve` call, whatever it says, and appends
the same record to the residuals of the mesh, with the diagonal restored. -/
theorem solve_returns_solver_record {F L BC BF D Sol P Res : Type}
    (ops : SolveOps F L BC BF D Sol P Res) (solver : Sol)
    (st : SolveState F L BC BF Res) (solverControls : D) :
    let mat1 : fvMatrix F L BC BF :=
      { st.mat with diag := ops.addBoundaryDiag st.mat st.mat.diag }
    let totalSource := ops.addBoundarySource mat1 st.mat.source
    (∀ (s : Sol) (solverPerf : P) (psiInternal : F),
      ops.solverNew st.mat.psi.name mat1 solverControls = .ok s →
      ops.solverSolve s mat1 st.mat.psi.primitiveField totalSource
        = .ok (solverPerf, psiInternal) →
      ∃ st1, solveSegregated ops st solverControls = .ok (solverPerf, st1) ∧
        st1.residuals = ops.residualsAppend st.residuals solverPerf ∧
        st1.mat.diag = st.mat.diag) ∧
    (∀ e, solveSegregated ops st solverControls = .error e ↔
      (ops.solverNew st.mat.psi.name mat1 solverControls = .error e ∨
        ∃ s, ops.solverNew st.mat.psi.name mat1 solverControls = .ok s ∧
          ops.solverSolve s mat1 st.mat.psi.primitiveField totalSource
            = .error e)) ∧
    (∀ (s : Sol) (solverPerf : P) (psiInternal : F),
      ops.solverRead solver solverControls = .ok s →
      ops.solverSolve s mat1 st.mat.psi.primitiveField totalSource
        = .ok (solverPerf, psiInternal) →
      ∃ st1, fvSolverSolve ops solver st solverControls
          = .ok (solverPerf, s, st1) ∧
        st1.residuals = ops.residualsAppend st.residuals solverPerf ∧
        st1.mat.diag = st.mat.diag) ∧
    (∀ e, fvSolverSolve ops solver st solverControls = .error e ↔
      (ops.solverRead solver solverControls = .error e ∨
        ∃ s, ops.solverRead solver solverControls = .ok s ∧
          ops.solverSolve s mat1 st.mat.psi.primitiveField totalSource
            = .error e)) := by
  intro mat1 totalSource
  refine ⟨?_, ?_, ?_, ?_⟩
  · intro s solverPerf psiInternal hn hs
    refine ⟨(finishSolve ops st.mat.diag { st with mat := mat1 } solverPerf
      psiInternal).2, ?_, rfl, rfl⟩
    simp only [solveSegregated]
    rw [hn]
    simp only []
    rw [hs]
    rfl
  · intro e
    simp only [solveSegregated]
    cases hn : ops.solverNew st.mat.psi.name mat1 solverControls with
    | error e1 => simp [mat1, hn]
    | ok s =>
      cases hs : ops.solverSolve s mat1 st.mat.psi.primitiveField totalSource with
      | error e1 => simp [mat1, totalSource, hn, hs]
      | ok r => simp [mat1, totalSource, hn, hs]
  · intro s solverPerf psiInternal hn hs
    refine ⟨(finishSolve ops st.mat.diag { st with mat := mat1 } solverPerf
      psiInternal).2, ?_, rfl, rfl⟩
    simp only [fvSolverSolve]
    rw [hn]
    simp only []
    rw [hs]
    rfl
  · intro e
    simp only [fvSolverSolve]
    cases hn : ops.solverRead solver solverControls with
    | error e1 => simp [hn]
    | ok s =>
      cases hs : ops.solverSolve s mat1 st.mat.psi.primitiveField totalSource with
      | error e1 => simp [mat1, totalSource, hn, hs]
      | ok r => simp [mat1, totalSource, hn, hs]

/-! ## The tag of a processor-cyclic patch -/

namespace processorCyclicPolyPatch

/-- The hash-derived tag lies in `[0, 32768)`. -/
theorem hashTag_range (Hash : word → Nat) (pp : processorCyclicPolyPatch) :
    0 ≤ hashTag Hash pp ∧ hashTag Hash pp < 32768 := by
  unfold hashTag
  split <;> constructor <;> omega

/-- The hash-derived tag is never the "unset" value -1. -/
theorem hashTag_ne_neg_one (Hash : word → Nat) (pp : processorCyclicPolyPatch) :
    hashTag Hash pp ≠ -1 := by
  have h := (hashTag_range Hash pp).1
  omega

/-- With `tag_` unset and no clash with the message type, `tag()` returns the
hash-derived tag and stores it. -/
theorem tag_of_ne (Hash : word → Nat) (msgType : Int)
    (pp : processorCyclicPolyPatch) (hunset : pp.tag_ = -1)
    (hne : hashTag Hash pp ≠ msgType) :
    tag Hash msgType pp
      = .ok (hashTag Hash pp, { pp with tag_ := hashTag Hash pp }) := by
  have h1 := hashTag_ne_neg_one Hash pp
  simp [tag, hunset, hne, h1]

/-- With `tag_` unset and the hash-derived tag equal to the message type,
`tag()` ends in the fatal error. -/
theorem tag_of_eq (Hash : word → Nat) (msgType : Int)
    (pp : processorCyclicPolyPatch) (hunset : pp.tag_ = -1)
    (heq : hashTag Hash pp = msgType) :
    tag Hash msgType pp
      = .error "Tag calculated from cyclic patch name is the same as the current message type or -1" := by
  simp [tag, hunset, heq]

/-- C3 (as stated, refuted): whatever the string hash is, when the current
message type equals the hash-derived tag of the cyclic patch `cyc_half0`, the
call of `tag()` on the owner side of a connection through `cyc_half0` (with no
`tag` entry) returns no value at all. -/
theorem tag_owner_no_value_on_msgType_clash :
    ¬ ∃ (Hash : word → Nat) (r : Int × processorCyclicPolyPatch),
        tag Hash ((Hash "cyc_half0" % 32768 : Nat) : Int)
          { myProcNo := 0, neighbProcNo := 1,
            referPatch := { name := "cyc_half0", nbrPatchName := "cyc_half1" },
            tag_ := -1 } = .ok r := by
  rintro ⟨Hash, r, h⟩
  rw [tag_of_eq Hash _ _ rfl (by simp [hashTag, owner])] at h
  cases h

/-- C3 (amended): for an owner-side patch referring to cyclic patch A and the
facing non-owner-side patch referring to a cyclic patch B whose neighbour patch
is A, both without a `tag` entry, `tag()` has the same outcome on both sides:
when `Hash(A.name) mod 32768` differs from the current message type both sides
return (and store) exactly that value, and when it equals the message type both
sides end in the fatal error. -/
theorem tag_same_on_both_sides (Hash : word → Nat) (msgType : Int)
    (ownerSide nbrSide : processorCyclicPolyPatch)
    (hown : ownerSide.owner = true) (hnbr : nbrSide.owner = false)
    (hunsetO : ownerSide.tag_ = -1) (hunsetN : nbrSide.tag_ = -1)
    (hfacing : nbrSide.referPatch.nbrPatchName = ownerSide.referPatch.name) :
    (((Hash ownerSide.referPatch.name % 32768 : Nat) : Int) ≠ msgType →
      tag Hash msgType ownerSide
        = .ok (((Hash ownerSide.referPatch.name % 32768 : Nat) : Int),
            { ownerSide with
              tag_ := ((Hash ownerSide.referPatch.name % 32768 : Nat) : Int) }) ∧
      tag Hash msgType nbrSide
        = .ok (((Hash ownerSide.referPatch.name % 32768 : Nat) : Int),
            { nbrSide with
              tag_ := ((Hash ownerSide.referPatch.name % 32768 : Nat) : Int) })) ∧
    (((Hash ownerSide.referPatch.name % 32768 : Nat) : Int) = msgType →
      (∃ e, tag Hash msgType ownerSide = .error e) ∧
      (∃ e, tag Hash msgType nbrSide = .error e)) := by
  have hO : hashTag Hash ownerSide
      = ((Hash ownerSide.referPatch.name % 32768 : Nat) : Int) := by
    simp [hashTag, hown]
  have hN : hashTag Hash nbrSide
      = ((Hash ownerSide.referPatch.name % 32768 : Nat) : Int) := by
    simp [hashTag, hnbr, hfacing]
  constructor
  · intro hne
    constructor
    · rw [← hO]; exact tag_of_ne Hash msgType ownerSide hunsetO (by rw [hO]; exact hne)
    · rw [← hN]; exact tag_of_ne Hash msgType nbrSide hunsetN (by rw [hN]; exact hne)
  · intro heq
    exact ⟨⟨_, tag_of_eq Hash msgType ownerSide hunsetO (by rw [hO]; exact heq)⟩,
      ⟨_, tag_of_eq Hash msgType nbrSide hunsetN (by rw [hN]; exact heq)⟩⟩

/-- C3 (amended), at a concrete pair: processors 0 and 1 connected through
`cyc_half0`/`cyc_half1`, the string length standing in for the hash, message
type 1: both sides return 9. -/
theorem tag_same_on_both_sides_witness :
    tag String.length 1
        { myProcNo := 0, neighbProcNo := 1,
          referPatch := { name := "cyc_half0", nbrPatchName := "cyc_half1" },
          tag_ := -1 }
      = .ok (9,
        { myProcNo := 0, neighbProcNo := 1,
          referPatch := { name := "cyc_half0", nbrPatchName := "cyc_half1" },
          tag_ := 9 }) ∧
    tag String.length 1
        { myProcNo := 1, neighbProcNo := 0,
          referPatch := { name := "cyc_half1", nbrPatchName := "cyc_half0" },
          tag_ := -1 }
      = .ok (9,
        { myProcNo := 1, neighbProcNo := 0,
          referPatch := { name := "cyc_half1", nbrPatchName := "cyc_half0" },
          tag_ := 9 }) :=
  (tag_same_on_both_sides String.length 1
    { myProcNo := 0, neighbProcNo := 1,
      referPatch := { name := "cyc_half0", nbrPatchName := "cyc_half1" },
      tag_ := -1 }
    { myProcNo := 1, neighbProcNo := 0,
      referPatch := { name := "cyc_half1", nbrPatchName := "cyc_half0" },
      tag_ := -1 }
    (by decide) (by decide) rfl rfl rfl).1 (by decide)

/-- Two different words with the same hash modulo 32768 exist for every hash
function: there are infinitely many words and only 32768 residues. -/
theorem exists_hash_clash (Hash : word → Nat) :
    ∃ w1 w2 : word, w1 ≠ w2 ∧ Hash w1 % 32768 = Hash w2 % 32768 := by
  obtain ⟨w1, w2, hne, heq⟩ :=
    Finite.exists_ne_map_eq_of_infinite
      (fun w : String => (⟨Hash w % 32768, Nat.mod_lt _ (by norm_num)⟩ : Fin 32768))
  exact ⟨w1, w2, hne, by simpa using congrArg Fin.val heq⟩

/-- C4 (as stated, refuted): there is no string hash for which the tags of any
two owner-side patches (no `tag` entry) whose referred cyclic patches have
different names are different whenever `tag()` returns on both. -/
theorem tag_not_unique :
    ¬ ∃ Hash : word → Nat,
        ∀ (msgType : Int) (p1 p2 : processorCyclicPolyPatch),
          p1.owner = true → p2.owner = true → p1.tag_ = -1 → p2.tag_ = -1 →
          p1.referPatch.name ≠ p2.referPatch.name →
          ∀ v1 q1 v2 q2, tag Hash msgType p1 = .ok (v1, q1) →
            tag Hash msgType p2 = .ok (v2, q2) → v1 ≠ v2 := by
  rintro ⟨Hash, h⟩
  obtain ⟨w1, w2, hne, heq⟩ := exists_hash_clash Hash
  let p1 : processorCyclicPolyPatch :=
    { myProcNo := 0, neighbProcNo := 1,
      referPatch := { name := w1, nbrPatchName := w2 }, tag_ := -1 }
  let p2 : processorCyclicPolyPatch :=
    { myProcNo := 0, neighbProcNo := 1,
      referPatch := { name := w2, nbrPatchName := w1 }, tag_ := -1 }
  have h1 : hashTag Hash p1 = ((Hash w1 % 32768 : Nat) : Int) := by
    simp [hashTag, owner, p1]
  have h2 : hashTag Hash p2 = ((Hash w1 % 32768 : Nat) : Int) := by
    simp [hashTag, owner, p2, heq]
  have t1 := tag_of_ne Hash (((Hash w1 % 32768 : Nat) : Int) + 1) p1 rfl
    (by rw [h1]; omega)
  have t2 := tag_of_ne Hash (((Hash w1 % 32768 : Nat) : Int) + 1) p2 rfl
    (by rw [h2]; omega)
  exact h _ p1 p2 (by simp [owner, p1]) (by simp [owner, p2]) rfl rfl hne _ _ _ _ t1 t2 (by rw [h1, h2])

/-- C4 (amended): for two owner-side patches without a `tag` entry on which
`tag()` returns, the returned tags differ exactly when the hashes of the names
of the referred cyclic patches differ modulo 32768; in particular equal names
give equal tags, and different names give different tags only when their hashes
do not clash modulo 32768. -/
theorem tag_differs_iff_hash_differs (Hash : word → Nat) (msgType : Int)
    (p1 p2 : processorCyclicPolyPatch)
    (hown1 : p1.owner = true) (hown2 : p2.owner = true)
    (hunset1 : p1.tag_ = -1) (hunset2 : p2.tag_ = -1)
    (v1 v2 : Int) (q1 q2 : processorCyclicPolyPatch)
    (hret1 : tag Hash msgType p1 = .ok (v1, q1))
    (hret2 : tag Hash msgType p2 = .ok (v2, q2)) :
    (v1 ≠ v2 ↔
      Hash p1.referPatch.name % 32768 ≠ Hash p2.referPatch.name % 32768) ∧
    (p1.referPatch.name = p2.referPatch.name → v1 = v2) := by
  have h1 : hashTag Hash p1 = ((Hash p1.referPatch.name % 32768 : Nat) : Int) := by
    simp [hashTag, hown1]
  have h2 : hashTag Hash p2 = ((Hash p2.referPatch.name % 32768 : Nat) : Int) := by
    simp [hashTag, hown2]
  have e1 : v1 = ((Hash p1.referPatch.name % 32768 : Nat) : Int) := by
    by_cases hc : hashTag Hash p1 = msgType
    · rw [tag_of_eq Hash msgType p1 hunset1 hc] at hret1
      cases hret1
    · rw [tag_of_ne Hash msgType p1 hunset1 hc] at hret1
      cases hret1
      exact h1
  have e2 : v2 = ((Hash p2.referPatch.name % 32768 : Nat) : Int) := by
    by_cases hc : hashTag Hash p2 = msgType
    · rw [tag_of_eq Hash msgType p2 hunset2 hc] at hret2
      cases hret2
    · rw [tag_of_ne Hash msgType p2 hunset2 hc] at hret2
      cases hret2
      exact h2
  constructor
  · rw [e1, e2]
    constructor
    · intro h hh
      exact h (by rw [hh])
    · intro h hh
      exact h (by exact_mod_cast hh)
  · intro hn
    rw [e1, e2, hn]

/-- C4 (amended), at a concrete pair: with the string length standing in for
the hash and message type 1, the patches through `left` (4 letters) and
`bottom` (6 letters) get the different tags 4 and 6. -/
theorem tag_differs_iff_hash_differs_witness :
    ((4 : Int) ≠ 6 ↔ String.length "left" % 32768 ≠ String.length "bottom" % 32768) ∧
    ("left" = "bottom" → (4 : Int) = 6) :=
  tag_differs_iff_hash_differs String.length 1
    { myProcNo := 0, neighbProcNo := 1,
      referPatch := { name := "left", nbrPatchName := "right" }, tag_ := -1 }
    { myProcNo := 0, neighbProcNo := 2,
      referPatch := { name := "bottom", nbrPatchName := "top" }, tag_ := -1 }
    (by decide) (by decide) rfl rfl 4 6
    { myProcNo := 0, neighbProcNo := 1,
      referPatch := { name := "left", nbrPatchName := "right" }, tag_ := 4 }
    { myProcNo := 0, neighbProcNo := 2,
      referPatch := { name := "bottom", nbrPatchName := "top" }, tag_ := 6 }
    (by rfl) (by rfl)

/-- C5: with no tag set by hand (`tag_ = -1`) the hash-derived tag lies in
`[0, 32768)`, so it is never -1; `tag()` ends in the fatal error exactly when
that tag equals the current message type; otherwise it returns that tag, which
differs from the message type, stores it in `tag_`, and every later call,
whatever the message type then is, returns the same stored value and leaves
the patch as it is. -/
theorem tag_fatal_iff_msgType (Hash : word → Nat) (msgType : Int)
    (pp : processorCyclicPolyPatch) (hunset : pp.tag_ = -1) :
    (0 ≤ hashTag Hash pp ∧ hashTag Hash pp < 32768 ∧ hashTag Hash pp ≠ -1) ∧
    ((∃ e, tag Hash msgType pp = .error e) ↔ hashTag Hash pp = msgType) ∧
    (hashTag Hash pp ≠ msgType →
      tag Hash msgType pp
        = .ok (hashTag Hash pp, { pp with tag_ := hashTag Hash pp }) ∧
      ∀ laterMsgType : Int,
        tag Hash laterMsgType { pp with tag_ := hashTag Hash pp }
          = .ok (hashTag Hash pp, { pp with tag_ := hashTag Hash pp })) := by
  have hr := hashTag_range Hash pp
  have hn := hashTag_ne_neg_one Hash pp
  refine ⟨⟨hr.1, hr.2, hn⟩, ⟨?_, ?_⟩, ?_⟩
  · rintro ⟨e, he⟩
    by_contra hne
    rw [tag_of_ne Hash msgType pp hunset hne] at he
    cases he
  · intro heq
    exact ⟨_, tag_of_eq Hash msgType pp hunset heq⟩
  · intro hne
    refine ⟨tag_of_ne Hash msgType pp hunset hne, fun laterMsgType => ?_⟩
    simp [tag, hn]

/-- C5 at a concrete patch: the string length standing in for the hash, the
owner side of a connection through `cyc_half0`, message type 1. -/
theorem tag_fatal_iff_msgType_witness :
    tag String.length 1
        { myProcNo := 0, neighbProcNo := 1,
          referPatch := { name := "cyc_half0", nbrPatchName := "cyc_half1" },
          tag_ := -1 }
      = .ok (9,
        { myProcNo := 0, neighbProcNo := 1,
          referPatch := { name := "cyc_half0", nbrPatchName := "cyc_half1" },
          tag_ := 9 }) :=
  ((tag_fatal_iff_msgType String.length 1
    { myProcNo := 0, neighbProcNo := 1,
      referPatch := { name := "cyc_half0", nbrPatchName := "cyc_half1" },
      tag_ := -1 } rfl).2.2 (by decide)).1

end processorCyclicPolyPatch

/-! ## Carbon oxidation, diffusion-limited rate -/

namespace COxidationDiffusionLimitedRate

/-- The sample model is what the constructor builds from `Sb = 1`,
`D = 1e-5` on the sample cloud. -/
theorem construct_sample :
    construct 1 (1 / 100000) sampleCloud = .ok sampleModel := by
  simp [construct, sampleCloud, sampleModel]
  norm_num

/-- C6: the constructor ends in the fatal error 'Stoichiometry of reaction, Sb,
must be greater than zero' exactly for `Sb < 0`; for `Sb = 0`, which is not
greater than zero, it succeeds and stores `Sb_ = 0`. -/
theorem construct_accepts_zero_Sb (D : ℚ) (owner : CloudData) :
    (∃ m, construct 0 D owner = .ok m ∧ m.Sb_ = 0) ∧
    (∀ Sb : ℚ, (∃ e, construct Sb D owner = .error e) ↔ Sb < 0) ∧
    (∀ Sb : ℚ, 0 ≤ Sb → ∃ m, construct Sb D owner = .ok m ∧ m.Sb_ = Sb) := by
  have hok : ∀ Sb : ℚ, 0 ≤ Sb → ∃ m, construct Sb D owner = .ok m ∧ m.Sb_ = Sb := by
    intro Sb h
    have h1 : ¬ Sb < 0 := not_lt.2 h
    simp only [construct, h1, if_false]
    exact ⟨_, rfl, rfl⟩
  refine ⟨hok 0 le_rfl, fun Sb => ?_, hok⟩
  by_cases h : Sb < 0
  · simp [construct, h]
  · simp [construct, h]

/-- C8 (as stated, refuted): on the sample call with a solid fraction of
1e-15, so that `fComb = 5e-16 < small`, the call returns early: nothing is
recorded in `dMassSolid[CsLocalId_]`, while
`min(mass*fComb, 4*pi*d*D*YO2*Tc*rhoc/(Sb*(T + Tc))*dt)` is positive. -/
theorem calculate_early_return_records_nothing :
    (sampleCalculate (1 / 1000000000000000)).dMassSolid 0 - 0 = 0 ∧
    0 < min ((1 / 1000000000 : ℚ) * ((1 / 1000000000000000) * (1 / 2)))
      (4 * (3141592653589793 / 1000000000000000) * (1 / 10000) * (1 / 100000)
        * (1 / 5) * 1200 * (1 / 4) / (1 * (1500 + 1200)) * (1 / 1000)) ∧
    (sampleCalculate (1 / 1000000000000000)).dMassSolid 0 - 0
      ≠ min ((1 / 1000000000 : ℚ) * fComb sampleModel sampleCloud
          (fun _ => 1 / 2) (fun _ => 1 / 1000000000000000))
        (dmCRate sampleModel sampleCloud (3141592653589793 / 1000000000000000)
          (1 / 1000) 0 (1 / 10000) 1500 1200 (1 / 4)) := by
  have h0 : (sampleCalculate (1 / 1000000000000000)).dMassSolid 0 - 0 = 0 := by
    norm_num [sampleCalculate, calculate, fComb, sampleModel, sampleCloud]
  refine ⟨h0, by norm_num, ?_⟩
  rw [h0]
  norm_num [fComb, dmCRate, sampleModel, sampleCloud]

/-- C8 (amended): in a call with `fComb >= small`, where
`fComb = YMixture[idSolid]*YSolid[CsLocalId_]`, and with a divisor
`Sb_*(T + Tc)` other than zero, the carbon mass change recorded in
`dMassSolid[CsLocalId_]` equals
`min(mass*fComb, 4*pi*d*D*YO2*Tc*rhoc/(Sb*(T + Tc))*dt)` and so never exceeds
`mass*YMixture[idSolid]*YSolid[CsLocalId_]`; in a call with `fComb < small`
the function returns 0 early and records nothing: all four mass-change fields
are as on entry. -/
theorem calculate_limited_by_carbon (m : COxidationDiffusionLimitedRate)
    (owner : CloudData) (pi small dt : ℚ) (celli : Nat)
    (d T Tc pc rhoc mass : ℚ) (YGas YLiquid YSolid YMixture : scalarField)
    (N : ℚ) (dMassGas dMassLiquid dMassSolid dMassSRCarrier : scalarField) :
    let r := calculate m owner pi small dt celli d T Tc pc rhoc mass YGas YLiquid
      YSolid YMixture N dMassGas dMassLiquid dMassSolid dMassSRCarrier
    let dmC := r.dMassSolid m.CsLocalId_ - dMassSolid m.CsLocalId_
    (small ≤ YMixture owner.idSolid * YSolid m.CsLocalId_ →
      m.Sb_ * (T + Tc) ≠ 0 →
      dmC = min (mass * (YMixture owner.idSolid * YSolid m.CsLocalId_))
          (4 * pi * d * m.D_ * owner.Y m.O2GlobalId_ celli * Tc * rhoc
            / (m.Sb_ * (T + Tc)) * dt) ∧
      dmC ≤ mass * YMixture owner.idSolid * YSolid m.CsLocalId_) ∧
    (YMixture owner.idSolid * YSolid m.CsLocalId_ < small →
      r.value = 0 ∧ r.dMassGas = dMassGas ∧ r.dMassLiquid = dMassLiquid ∧
      r.dMassSolid = dMassSolid ∧ r.dMassSRCarrier = dMassSRCarrier ∧ dmC = 0) := by
  intro r dmC
  constructor
  · intro hactive _
    have hnot : ¬ fComb m owner YSolid YMixture < small := not_lt.2 hactive
    have hC : dmC = min (mass * (YMixture owner.idSolid * YSolid m.CsLocalId_))
        (4 * pi * d * m.D_ * owner.Y m.O2GlobalId_ celli * Tc * rhoc
          / (m.Sb_ * (T + Tc)) * dt) := by
      have hnot2 : ¬ YMixture owner.idSolid * YSolid m.CsLocalId_ < small :=
        not_lt.2 hactive
      simp [dmC, r, calculate, fComb, dmCRate, hnot2]
    refine ⟨hC, ?_⟩
    rw [hC]
    exact le_trans (min_le_left _ _) (le_of_eq (by ring))
  · intro hearly
    have hlt : fComb m owner YSolid YMixture < small := hearly
    simp [dmC, r, calculate, hlt]

/-- C8 (amended) on the sample call (solid fraction 1, `Sb_ = 1`,
`T + Tc = 2700`): the carbon recorded is at most the carbon present, 5e-10. -/
theorem calculate_limited_by_carbon_witness :
    (sampleCalculate 1).dMassSolid 0 - 0 ≤ (1 / 1000000000 : ℚ) * 1 * (1 / 2) :=
  ((calculate_limited_by_carbon sampleModel sampleCloud
    (3141592653589793 / 1000000000000000)
    (1 / 1000000000000000) (1 / 1000) 0 (1 / 10000) 1500 1200 100000 (1 / 4)
    (1 / 1000000000) (fun _ => 0) (fun _ => 0) (fun _ => 1 / 2)
    (fun _ => 1) 1 (fun _ => 0) (fun _ => 0) (fun _ => 0) (fun _ => 0)).1
    (by norm_num [sampleModel, sampleCloud])
    (by norm_num [sampleModel])).2

end COxidationDiffusionLimitedRate

/-! ## repatchMesh -/

namespace repatchMesh

/-- The truncation that the `label` distances of `getNearest` undergo maps
every distance below 1 to 0. -/
theorem scalarToLabel_lt_one (s : ℚ) (h0 : 0 ≤ s) (h1 : s < 1) :
    scalarToLabel s = 0 := by
  unfold scalarToLabel
  have hden : (0 : Int) < (s.den : Int) := by exact_mod_cast s.den_pos
  have hnum0 : 0 ≤ s.num := Rat.num_nonneg.2 h0
  have hlt : s.num < (s.den : Int) := by
    have h := Rat.lt_def.1 h1
    simpa using h
  rw [Int.tdiv_eq_ediv hnum0 (le_of_lt hden)]
  exact Int.ediv_eq_zero_of_lt hnum0 hlt

/-- When both searches hit and both candidate normals have the same strict
sign against the boundary face normal, the stored face is decided by comparing
the truncated distances. -/
theorem nearestBFace_same_sign (leftFaces rightFaces : List Nat)
    (ns : List vector) (n : vector) (typDim : ℚ) (rightInfo leftInfo : pointIndexHit)
    (rightMag leftMag : ℚ) (hr : rightInfo.hit = true) (hl : leftInfo.hit = true)
    (hsign :
      (vector.dot n (ns.getD (rightFaces.getD rightInfo.index 0) ⟨0, 0, 0⟩) > 0 ∧
        vector.dot n (ns.getD (leftFaces.getD leftInfo.index 0) ⟨0, 0, 0⟩) > 0) ∨
      (vector.dot n (ns.getD (rightFaces.getD rightInfo.index 0) ⟨0, 0, 0⟩) < 0 ∧
        vector.dot n (ns.getD (leftFaces.getD leftInfo.index 0) ⟨0, 0, 0⟩) < 0)) :
    nearestBFace leftFaces rightFaces ns n typDim rightInfo leftInfo rightMag leftMag
      = if scalarToLabel rightMag < scalarToLabel leftMag
        then ((rightFaces.getD rightInfo.index 0 : Nat) : Int)
        else ((leftFaces.getD leftInfo.index 0 : Nat) : Int) := by
  simp only [nearestBFace, hr, hl, if_true]
  rw [if_pos hsign]

/-- C9: a surface of two faces with unit normals (3/5, 0, 4/5) and
(-3/5, 0, 4/5), which the split along (3, 2, 1) puts in the right and in the
left tree; one boundary face with normal (0, 0, 1) centred at the origin; the
right-tree hit lies at (3/10, 0, 0), at distance 3/10, the left-tree hit at
(-9/10, 0, 0), at distance 9/10.  Both candidate normals have positive inner
product with the boundary face normal and the right candidate, face 0, is
strictly nearer, yet `getNearest` returns the left one, face 1: both distances
are truncated to the label 0 before they are compared. -/
theorem getNearest_ignores_nearer_right :
    splitFaces [⟨3 / 5, 0, 4 / 5⟩, ⟨-3 / 5, 0, 4 / 5⟩] = ([1], [0]) ∧
    vector.dot ⟨0, 0, 1⟩ ⟨3 / 5, 0, 4 / 5⟩ > 0 ∧
    vector.dot ⟨0, 0, 1⟩ ⟨-3 / 5, 0, 4 / 5⟩ > 0 ∧
    (3 / 10 : ℚ) < 9 / 10 ∧
    scalarToLabel (3 / 10) = 0 ∧ scalarToLabel (9 / 10) = 0 ∧
    getNearest [⟨3 / 5, 0, 4 / 5⟩, ⟨-3 / 5, 0, 4 / 5⟩]
      [{ n := ⟨0, 0, 1⟩, typDim := 1,
         rightInfo := ⟨true, ⟨3 / 10, 0, 0⟩, 0⟩,
         leftInfo := ⟨true, ⟨-9 / 10, 0, 0⟩, 0⟩,
         rightMag := 3 / 10, leftMag := 9 / 10 }] = [1] := by
  have hr : scalarToLabel (3 / 10) = 0 := scalarToLabel_lt_one _ (by norm_num) (by norm_num)
  have hl : scalarToLabel (9 / 10) = 0 := scalarToLabel_lt_one _ (by norm_num) (by norm_num)
  have hs : splitFaces [⟨3 / 5, 0, 4 / 5⟩, ⟨-3 / 5, 0, 4 / 5⟩] = ([1], [0]) := by
    norm_num [splitFaces, forLoop, List.range', vector.dot, splitNormal_]
  refine ⟨hs, by norm_num [vector.dot], by norm_num [vector.dot], by norm_num, hr, hl, ?_⟩
  simp only [getNearest, hs, List.map_cons, List.map_nil, nearestBFace, hr, hl]
  norm_num [vector.dot]

/-- A loop that only sets entries leaves the length of the list as it was. -/
theorem forLoop_set_length {α : Type} (f : Nat → α) (shift : Nat) :
    ∀ (cnt lo : Nat) (acc : List α),
      ((List.range' lo cnt).foldl (fun acc i => acc.set (i - shift) (f i)) acc).length
        = acc.length := by
  intro cnt
  induction cnt with
  | zero => intro lo acc; rfl
  | succ cnt ih =>
    intro lo acc
    rw [List.range'_succ, List.foldl_cons, ih, List.length_set]

/-- Entry `j` after a loop over `lo, ..., lo + cnt - 1` that sets entry
`i - shift` to `f i`, for a shift of at most `lo`. -/
theorem forLoop_set_getElem? {α : Type} (f : Nat → α) (shift : Nat) :
    ∀ (cnt lo : Nat) (acc : List α) (j : Nat), shift ≤ lo →
      ((List.range' lo cnt).foldl (fun acc i => acc.set (i - shift) (f i)) acc)[j]?
        = if lo ≤ j + shift ∧ j + shift < lo + cnt ∧ j < acc.length
          then some (f (j + shift)) else acc[j]? := by
  intro cnt
  induction cnt with
  | zero =>
    intro lo acc j _
    have hc : ¬ (lo ≤ j + shift ∧ j + shift < lo + 0 ∧ j < acc.length) := by omega
    rw [if_neg hc]
    rfl
  | succ cnt ih =>
    intro lo acc j hs
    rw [List.range'_succ, List.foldl_cons, ih (lo + 1) _ j (by omega),
      List.length_set, List.getElem?_set]
    by_cases hj : lo - shift = j
    · have hjs : j + shift = lo := by omega
      by_cases hlen : j < acc.length
      · have c1 : ¬ (lo + 1 ≤ j + shift ∧ j + shift < lo + 1 + cnt ∧ j < acc.length) := by
          omega
        have c2 : lo ≤ j + shift ∧ j + shift < lo + (cnt + 1) ∧ j < acc.length := by
          omega
        have c3 : lo - shift < acc.length := by omega
        rw [if_neg c1, if_pos hj, if_pos c3, if_pos c2, hjs]
      · have c1 : ¬ (lo + 1 ≤ j + shift ∧ j + shift < lo + 1 + cnt ∧ j < acc.length) := by
          omega
        have c2 : ¬ (lo ≤ j + shift ∧ j + shift < lo + (cnt + 1) ∧ j < acc.length) := by
          omega
        have c3 : ¬ lo - shift < acc.length := by omega
        rw [if_neg c1, if_pos hj, if_neg c3, if_neg c2]
        exact (List.getElem?_eq_none (by omega)).symm
    · rw [if_neg hj]
      by_cases hc : lo + 1 ≤ j + shift ∧ j + shift < lo + 1 + cnt ∧ j < acc.length
      · have c2 : lo ≤ j + shift ∧ j + shift < lo + (cnt + 1) ∧ j < acc.length := by
          omega
        rw [if_pos hc, if_pos c2]
      · have c2 : ¬ (lo ≤ j + shift ∧ j + shift < lo + (cnt + 1) ∧ j < acc.length) := by
          omega
        rw [if_neg hc, if_neg c2]

/-- What the loop of `findIndex` returns from position `patchi` on: -1 when no
patch of the rest has the name, otherwise `patchi` plus the position of the
first patch that has it. -/
theorem findIndexFrom_spec (patchName : word) :
    ∀ (rest : List repatchPatch) (patchi : Nat),
      (findIndexFrom rest patchName patchi = -1 ∧
        ∀ bp ∈ rest, bp.name ≠ patchName) ∨
      (∃ (k : Nat) (bp : repatchPatch), rest[k]? = some bp ∧ bp.name = patchName ∧
        (∀ j, j < k → ∀ q : repatchPatch, rest[j]? = some q →
          q.name ≠ patchName) ∧
        findIndexFrom rest patchName patchi = ((patchi + k : Nat) : Int)) := by
  intro rest
  induction rest with
  | nil =>
    intro patchi
    exact Or.inl ⟨rfl, fun bp h => by cases h⟩
  | cons hd tl ih =>
    intro patchi
    by_cases hn : hd.name = patchName
    · refine Or.inr ⟨0, hd, by simp, hn, fun j hj => by omega, ?_⟩
      simp [findIndexFrom, hn]
    · rcases ih (patchi + 1) with ⟨h1, h2⟩ | ⟨k, bp, hk, hname, hfirst, hval⟩
      · refine Or.inl ⟨?_, ?_⟩
        · simpa [findIndexFrom, hn] using h1
        · intro bp hbp
          rcases List.mem_cons.1 hbp with h | h
          · rw [h]; exact hn
          · exact h2 bp h
      · refine Or.inr ⟨k + 1, bp, by simpa using hk, hname, ?_, ?_⟩
        · intro j hj q hq
          cases j with
          | zero =>
            simp at hq
            rw [← hq]; exact hn
          | succ j =>
            exact hfirst j (by omega) q (by simpa using hq)
        · simp only [findIndexFrom, hn, if_false, hval]
          push_cast
          ring

/-- The two copy loops of `deletePatch` fill every slot of the new list and
produce the old list without entry `k`. -/
theorem deletePatch_loops (patches_ : List repatchPatch) (k : Nat)
    (hk : k < patches_.length) :
    forLoop (k + 1) patches_.length
        (fun patchi acc =>
          acc.set (patchi - 1) ((patches_[patchi]?).map repatchPatch.clone))
        (forLoop 0 k
          (fun patchi acc =>
            acc.set patchi ((patches_[patchi]?).map repatchPatch.clone))
          (List.replicate (patches_.length - 1) none))
      = (patches_.eraseIdx k).map some := by
  have hclone : ∀ o : Option repatchPatch, o.map repatchPatch.clone = o := by
    intro o
    cases o <;> rfl
  simp only [forLoop, hclone, Nat.sub_zero]
  have h1len := forLoop_set_length (fun i => patches_[i]?) 0 k 0
    (List.replicate (patches_.length - 1) none)
  have h1 := forLoop_set_getElem? (fun i => patches_[i]?) 0 k 0
    (List.replicate (patches_.length - 1) none)
  simp only [Nat.sub_zero, Nat.add_zero, Nat.zero_add, List.length_replicate] at h1 h1len
  apply List.ext_getElem?
  intro j
  rw [forLoop_set_getElem? (fun i => patches_[i]?) 1 _ (k + 1) _ j (by omega), h1len,
    h1 j (Nat.zero_le _), List.getElem?_map, List.getElem?_eraseIdx,
    List.getElem?_replicate]
  by_cases hjk : j < k
  · have c1 : ¬ (k + 1 ≤ j + 1 ∧ j + 1 < k + 1 + (patches_.length - (k + 1))
        ∧ j < patches_.length - 1) := by omega
    have c2 : 0 ≤ j ∧ j < k ∧ j < patches_.length - 1 := by omega
    have hj : j < patches_.length := by omega
    rw [if_neg c1, if_pos c2, if_pos hjk, List.getElem?_eq_getElem hj]
    rfl
  · by_cases hjn : j < patches_.length - 1
    · have c1 : k + 1 ≤ j + 1 ∧ j + 1 < k + 1 + (patches_.length - (k + 1))
          ∧ j < patches_.length - 1 := by omega
      have hj : j + 1 < patches_.length := by omega
      rw [if_pos c1, if_neg hjk, List.getElem?_eq_getElem hj]
      rfl
    · have c1 : ¬ (k + 1 ≤ j + 1 ∧ j + 1 < k + 1 + (patches_.length - (k + 1))
          ∧ j < patches_.length - 1) := by omega
      have c2 : ¬ (0 ≤ j ∧ j < k ∧ j < patches_.length - 1) := by omega
      rw [if_neg c1, if_neg c2, if_neg hjk, if_neg hjn,
        List.getElem?_eq_none (by omega)]
      rfl

/-- Deleting the empty patch `old` from three patches leaves the other two, in
order; deleting the non-empty `walls` is refused. -/
theorem deletePatch_sample :
    deletePatch
        [⟨"inlet", 0, 4, 0, "patch"⟩, ⟨"old", 1, 0, 4, "empty"⟩,
          ⟨"walls", 2, 6, 4, "wall"⟩] "old"
      = .ok [some ⟨"inlet", 0, 4, 0, "patch"⟩, some ⟨"walls", 2, 6, 4, "wall"⟩] ∧
    deletePatch
        [⟨"inlet", 0, 4, 0, "patch"⟩, ⟨"old", 1, 0, 4, "empty"⟩,
          ⟨"walls", 2, 6, 4, "wall"⟩] "walls"
      = .error "Trying to delete non-empty patch walls" :=
  ⟨rfl, rfl⟩

/-- C10: `deletePatch(patchName)` ends in a fatal error iff no patch has that
name or the first patch with that name has non-zero size; otherwise the new
patch list is the old one with exactly that patch removed: every slot is set,
the count drops by one, the patches before it stay where they were and the
patches after it move down by one, each an unchanged copy (name, index, size,
start, type). -/
theorem deletePatch_contract (patches_ : List repatchPatch) (patchName : word) :
    ((∃ e, deletePatch patches_ patchName = .error e) ↔
      ((∀ bp ∈ patches_, bp.name ≠ patchName) ∨
        ∃ (k : Nat) (bp : repatchPatch), patches_[k]? = some bp ∧
          bp.name = patchName ∧
          (∀ j, j < k → ∀ q : repatchPatch, patches_[j]? = some q →
            q.name ≠ patchName) ∧
          bp.size ≠ 0)) ∧
    (∀ newPatches, deletePatch patches_ patchName = .ok newPatches →
      ∃ (k : Nat) (bp : repatchPatch), patches_[k]? = some bp ∧
        bp.name = patchName ∧ bp.size = 0 ∧
        (∀ j, j < k → ∀ q : repatchPatch, patches_[j]? = some q →
          q.name ≠ patchName) ∧
        newPatches = (patches_.eraseIdx k).map some ∧
        newPatches.length + 1 = patches_.length ∧
        (∀ j, j < k → newPatches[j]? = (patches_[j]?).map some) ∧
        (∀ j, k ≤ j → newPatches[j]? = (patches_[j + 1]?).map some)) := by
  rcases findIndexFrom_spec patchName patches_ 0 with
    ⟨hidx, hnone⟩ | ⟨k, bp, hk, hname, hfirst, hidx⟩
  · have herr : deletePatch patches_ patchName
        = .error ("Can't find patch named " ++ patchName) := by
      simp [deletePatch, findIndex, hidx]
    refine ⟨⟨fun _ => Or.inl hnone, fun _ => ⟨_, herr⟩⟩, ?_⟩
    intro newPatches h
    rw [herr] at h
    cases h
  · have hklt : k < patches_.length := by
      by_contra hc
      rw [List.getElem?_eq_none (by omega)] at hk
      cases hk
    have hmem : bp ∈ patches_ := List.getElem?_mem hk
    have hidx2 : findIndex patches_ patchName = (k : Int) := by
      simpa [findIndex] using hidx
    have hne : ¬ ((k : Int) = -1) := by omega
    have huniq : ∀ (k2 : Nat) (bp2 : repatchPatch), patches_[k2]? = some bp2 →
        bp2.name = patchName →
        (∀ j, j < k2 → ∀ q : repatchPatch, patches_[j]? = some q →
          q.name ≠ patchName) →
        k2 = k ∧ bp2 = bp := by
      intro k2 bp2 hk2 hname2 hfirst2
      have e : k2 = k := by
        rcases Nat.lt_trichotomy k2 k with h | h | h
        · exact absurd hname2 (hfirst k2 h bp2 hk2)
        · exact h
        · exact absurd hname (hfirst2 k h bp hk)
      subst e
      rw [hk] at hk2
      exact ⟨rfl, (Option.some.inj hk2).symm⟩
    by_cases hsize : bp.size = 0
    · have hok : deletePatch patches_ patchName
          = .ok ((patches_.eraseIdx k).map some) := by
        simp only [deletePatch, hidx2, hne, if_false, Int.toNat_ofNat, hk]
        rw [if_neg (not_not.2 hsize), deletePatch_loops patches_ k hklt]
      refine ⟨⟨?_, ?_⟩, ?_⟩
      · rintro ⟨e, he⟩
        rw [hok] at he
        cases he
      · rintro (hnone | ⟨k2, bp2, hk2, hname2, hfirst2, hsize2⟩)
        · exact absurd hname (hnone bp hmem)
        · obtain ⟨_, e2⟩ := huniq k2 bp2 hk2 hname2 hfirst2
          rw [e2] at hsize2
          exact absurd hsize hsize2
      · intro newPatches h
        rw [hok] at h
        cases h
        refine ⟨k, bp, hk, hname, hsize, hfirst, rfl, ?_, ?_, ?_⟩
        · rw [List.length_map, List.length_eraseIdx_of_lt hklt]
          omega
        · intro j hj
          rw [List.getElem?_map, List.getElem?_eraseIdx, if_pos hj]
        · intro j hj
          rw [List.getElem?_map, List.getElem?_eraseIdx, if_neg (by omega)]
    · have herr : deletePatch patches_ patchName
          = .error ("Trying to delete non-empty patch " ++ patchName) := by
        simp only [deletePatch, hidx2, hne, if_false, Int.toNat_ofNat, hk]
        rw [if_pos hsize]
      refine ⟨⟨fun _ => Or.inr ⟨k, bp, hk, hname, hfirst, hsize⟩, fun _ => ⟨_, herr⟩⟩, ?_⟩
      intro newPatches h
      rw [herr] at h
      cases h

/-! ### Marking the faces reachable from a seed -/

/-- Overwriting an entry that was -1 by another value lowers the number of
entries equal to -1 by one. -/
theorem count_set_of_unmarked (r : Int) (hr : r ≠ -1) :
    ∀ (l : List Int) (x : Nat), l[x]? = some (-1) →
      (l.set x r).count (-1) + 1 = l.count (-1) := by
  intro l
  induction l with
  | nil => intro x h; simp at h
  | cons a l ih =>
    intro x h
    cases x with
    | zero =>
      simp only [List.getElem?_cons_zero, Option.some.injEq] at h
      subst h
      simp only [List.set_cons_zero, List.count_cons]
      have h1 : (r == -1) = false := by simpa using hr
      simp [h1]
    | succ x =>
      simp only [List.getElem?_cons_succ] at h
      simp only [List.set_cons_succ, List.count_cons]
      have := ih x h
      omega

/-- Reading an entry after `set` within the bounds. -/
theorem getElem?_set_of_lt (l : List Int) (x j : Nat) (r : Int) (hx : x < l.length) :
    (l.set x r)[j]? = if x = j then some r else l[j]? := by
  rw [List.getElem?_set, if_pos hx]

/-- What a run of `markStep` over the labels `xs` does to the pair (recorded
labels, entries): the entries that are -1, pass the test and occur in `xs` are
set to `r`, all others stay; exactly those labels are appended to the record;
and the number of entries equal to -1 drops by the number of labels recorded. -/
theorem markStep_foldl (p : Nat → Bool) (r : Int) (hr : r ≠ -1) :
    ∀ (xs c : List Nat) (z : List Int),
      (xs.foldl (markStep p r) (c, z)).2.length = z.length ∧
      (∀ j, (j ∈ xs ∧ p j = true ∧ z[j]? = some (-1)) →
        (xs.foldl (markStep p r) (c, z)).2[j]? = some r) ∧
      (∀ j, ¬ (j ∈ xs ∧ p j = true ∧ z[j]? = some (-1)) →
        (xs.foldl (markStep p r) (c, z)).2[j]? = z[j]?) ∧
      (∃ new, (xs.foldl (markStep p r) (c, z)).1 = c ++ new ∧
        ∀ j, j ∈ new ↔ (j ∈ xs ∧ p j = true ∧ z[j]? = some (-1))) ∧
      (xs.foldl (markStep p r) (c, z)).2.count (-1)
          + (xs.foldl (markStep p r) (c, z)).1.length
        = z.count (-1) + c.length := by
  intro xs
  induction xs with
  | nil =>
    intro c z
    refine ⟨rfl, ?_, fun j _ => rfl, ⟨[], by simp, ?_⟩, rfl⟩
    · rintro j ⟨hj, _⟩
      cases hj
    · intro j
      simp
  | cons x xs ih =>
    intro c z
    by_cases hx : p x = true ∧ z[x]? = some (-1)
    · have hstep : markStep p r (c, z) x = (c ++ [x], z.set x r) := by
        simp only [markStep]
        rw [if_pos hx]
      have hxlt : x < z.length := by
        by_contra hc
        rw [List.getElem?_eq_none (by omega)] at hx
        cases hx.2
      have hget : ∀ j, (z.set x r)[j]? = if x = j then some r else z[j]? :=
        fun j => getElem?_set_of_lt z x j r hxlt
      have hrsome : (some r : Option Int) ≠ some (-1) := fun h => hr (Option.some.inj h)
      rw [List.foldl_cons, hstep]
      obtain ⟨ihlen, ihget1, ihget2, ⟨new1, ihnew, ihmem⟩, ihcount⟩ :=
        ih (c ++ [x]) (z.set x r)
      refine ⟨?_, ?_, ?_, ⟨x :: new1, ?_, ?_⟩, ?_⟩
      · rw [ihlen, List.length_set]
      · rintro j ⟨hj, hpj, hzj⟩
        by_cases hjx : x = j
        · rw [ihget2 j, hget j, if_pos hjx]
          rintro ⟨_, _, h3⟩
          rw [hget j, if_pos hjx] at h3
          exact hrsome h3
        · apply ihget1 j
          refine ⟨?_, hpj, ?_⟩
          · rcases List.mem_cons.1 hj with h | h
            · exact absurd h.symm hjx
            · exact h
          · rw [hget j, if_neg hjx]
            exact hzj
      · intro j hn
        have hjx : ¬ x = j := by
          intro h
          subst h
          exact hn ⟨List.mem_cons_self _ _, hx.1, hx.2⟩
        rw [ihget2 j, hget j, if_neg hjx]
        rintro ⟨h1, h2, h3⟩
        rw [hget j, if_neg hjx] at h3
        exact hn ⟨List.mem_cons_of_mem _ h1, h2, h3⟩
      · rw [ihnew, List.append_assoc]
        rfl
      · intro j
        rw [List.mem_cons, ihmem j]
        constructor
        · rintro (h | ⟨h1, h2, h3⟩)
          · subst h
            exact ⟨List.mem_cons_self _ _, hx.1, hx.2⟩
          · by_cases hjx : x = j
            · rw [hget j, if_pos hjx] at h3
              exact absurd h3 hrsome
            · rw [hget j, if_neg hjx] at h3
              exact ⟨List.mem_cons_of_mem _ h1, h2, h3⟩
        · rintro ⟨h1, h2, h3⟩
          by_cases hjx : x = j
          · exact Or.inl hjx.symm
          · refine Or.inr ⟨?_, h2, ?_⟩
            · rcases List.mem_cons.1 h1 with h | h
              · exact absurd h.symm hjx
              · exact h
            · rw [hget j, if_neg hjx]
              exact h3
      · have hc := count_set_of_unmarked r hr z x hx.2
        rw [ihcount, List.length_append, List.length_singleton]
        omega
    · have hstep : markStep p r (c, z) x = (c, z) := by
        simp only [markStep]
        rw [if_neg hx]
      rw [List.foldl_cons, hstep]
      obtain ⟨ihlen, ihget1, ihget2, ⟨new1, ihnew, ihmem⟩, ihcount⟩ := ih c z
      have hiff : ∀ j, (j ∈ x :: xs ∧ p j = true ∧ z[j]? = some (-1)) ↔
          (j ∈ xs ∧ p j = true ∧ z[j]? = some (-1)) := by
        intro j
        constructor
        · rintro ⟨h1, h2, h3⟩
          rcases List.mem_cons.1 h1 with h | h
          · subst h
            exact absurd ⟨h2, h3⟩ hx
          · exact ⟨h, h2, h3⟩
        · rintro ⟨h1, h2, h3⟩
          exact ⟨List.mem_cons_of_mem _ h1, h2, h3⟩
      refine ⟨ihlen, fun j h => ihget1 j ((hiff j).1 h),
        fun j h => ihget2 j (fun h2 => h ((hiff j).2 h2)),
        ⟨new1, ihnew, fun j => (ihmem j).trans (hiff j).symm⟩, ihcount⟩

/-- A fold nested over the lists `F a` is the fold over their concatenation. -/
theorem foldl_nested {α β σ : Type} (F : α → List β) (g : σ → β → σ) :
    ∀ (l : List α) (s : σ),
      l.foldl (fun st a => (F a).foldl g st) s = (l.flatMap F).foldl g s := by
  intro l
  induction l with
  | nil => intro s; rfl
  | cons a l ih =>
    intro s
    rw [List.foldl_cons, ih, List.flatMap_cons, List.foldl_append]

/-- The test `z[x] == -1` as written in the code, on an entry read with a
default other than -1, holds exactly for an entry that is there and is -1. -/
theorem getD_beq_neg_one (z : List Int) (x : Nat) :
    (z.getD x 0 == -1) = true ↔ z[x]? = some (-1) := by
  rw [List.getD_eq_getElem?_getD]
  cases h : z[x]? with
  | none => simp
  | some v => simp

/-- The sweep `faceToEdge` is a run of `markStep` over the edges of the changed
faces. -/
theorem faceToEdge_eq (mesh : rMesh) (regionEdge : List Bool) (region : Int)
    (changedFaces : List Nat) (edgeRegion : List Int) :
    faceToEdge mesh regionEdge region changedFaces edgeRegion
      = (changedFaces.flatMap (fun f => mesh.faceEdges.getD f [])).foldl
          (markStep (fun e => !regionEdge.getD e false) region) ([], edgeRegion) := by
  have hstep : (fun (st : List Nat × List Int) (edgeI : Nat) =>
      if (!regionEdge.getD edgeI false) && (st.2.getD edgeI 0 == -1) then
        (st.1 ++ [edgeI], st.2.set edgeI region)
      else st) = markStep (fun e => !regionEdge.getD e false) region := by
    funext st edgeI
    simp only [markStep]
    by_cases h : (fun e => !regionEdge.getD e false) edgeI = true ∧ st.2[edgeI]? = some (-1)
    · have h2 : ((!regionEdge.getD edgeI false) && (st.2.getD edgeI 0 == -1)) = true := by
        rw [Bool.and_eq_true]
        exact ⟨h.1, (getD_beq_neg_one _ _).2 h.2⟩
      rw [if_pos h, if_pos h2]
    · have h2 : ¬ ((!regionEdge.getD edgeI false) && (st.2.getD edgeI 0 == -1)) = true := by
        rw [Bool.and_eq_true]
        rintro ⟨h3, h4⟩
        exact h ⟨h3, (getD_beq_neg_one _ _).1 h4⟩
      rw [if_neg h, if_neg h2]
  unfold faceToEdge
  rw [hstep]
  exact foldl_nested _ _ _ _

/-- The sweep `edgeToFace` is a run of `markStep` over the faces of the changed
edges. -/
theorem edgeToFace_eq (mesh : rMesh) (region : Int) (changedEdges : List Nat)
    (faceRegion : List Int) :
    edgeToFace mesh region changedEdges faceRegion
      = (changedEdges.flatMap (fun e => mesh.edgeFaces.getD e [])).foldl
          (markStep (fun _ => true) region) ([], faceRegion) := by
  have hstep : (fun (st : List Nat × List Int) (facei : Nat) =>
      if st.2.getD facei 0 == -1 then
        (st.1 ++ [facei], st.2.set facei region)
      else st) = markStep (fun _ => true) region := by
    funext st facei
    simp only [markStep]
    by_cases h : st.2[facei]? = some (-1)
    · have h1 : True ∧ st.2[facei]? = some (-1) := ⟨trivial, h⟩
      rw [if_pos ((getD_beq_neg_one _ _).2 h), if_pos h1]
    · have h1 : ¬ (True ∧ st.2[facei]? = some (-1)) := fun h3 => h h3.2
      have h2 : ¬ (st.2.getD facei 0 == -1) = true :=
        fun h4 => h ((getD_beq_neg_one _ _).1 h4)
      rw [if_neg h2, if_neg h1]
  unfold edgeToFace
  rw [hstep]
  exact foldl_nested _ _ _ _

/-- What `faceToEdge` returns: the edges that were unmarked, are no region
edges and belong to a changed face are marked and are exactly the edges
returned; all other entries of `edgeRegion` stay. -/
theorem faceToEdge_spec (mesh : rMesh) (regionEdge : List Bool) (region : Int)
    (hr : region ≠ -1) (changedFaces : List Nat) (edgeRegion : List Int) :
    (faceToEdge mesh regionEdge region changedFaces edgeRegion).2.length
        = edgeRegion.length ∧
    (∀ e, ((∃ f, f ∈ changedFaces ∧ e ∈ mesh.faceEdges.getD f []) ∧
        regionEdge.getD e false = false ∧ edgeRegion[e]? = some (-1)) →
      (faceToEdge mesh regionEdge region changedFaces edgeRegion).2[e]?
        = some region) ∧
    (∀ e, ¬ ((∃ f, f ∈ changedFaces ∧ e ∈ mesh.faceEdges.getD f []) ∧
        regionEdge.getD e false = false ∧ edgeRegion[e]? = some (-1)) →
      (faceToEdge mesh regionEdge region changedFaces edgeRegion).2[e]?
        = edgeRegion[e]?) ∧
    (∀ e, e ∈ (faceToEdge mesh regionEdge region changedFaces edgeRegion).1 ↔
      ((∃ f, f ∈ changedFaces ∧ e ∈ mesh.faceEdges.getD f []) ∧
        regionEdge.getD e false = false ∧ edgeRegion[e]? = some (-1))) ∧
    (faceToEdge mesh regionEdge region changedFaces edgeRegion).2.count (-1)
        + (faceToEdge mesh regionEdge region changedFaces edgeRegion).1.length
      = edgeRegion.count (-1) := by
  rw [faceToEdge_eq]
  obtain ⟨hlen, hget1, hget2, ⟨new, hnew, hmem⟩, hcount⟩ :=
    markStep_foldl (fun e => !regionEdge.getD e false) region hr
      (changedFaces.flatMap (fun f => mesh.faceEdges.getD f [])) [] edgeRegion
  have hiff : ∀ e, ((∃ f, f ∈ changedFaces ∧ e ∈ mesh.faceEdges.getD f []) ∧
        regionEdge.getD e false = false ∧ edgeRegion[e]? = some (-1)) ↔
      (e ∈ changedFaces.flatMap (fun f => mesh.faceEdges.getD f []) ∧
        (fun e => !regionEdge.getD e false) e = true ∧ edgeRegion[e]? = some (-1)) := by
    intro e
    rw [List.mem_flatMap]
    simp only [Bool.not_eq_true']
  refine ⟨hlen, fun e h => hget1 e ((hiff e).1 h),
    fun e h => hget2 e (fun h2 => h ((hiff e).2 h2)), ?_, ?_⟩
  · intro e
    rw [hnew, List.nil_append, hmem e]
    exact (hiff e).symm
  · simpa using hcount

/-- What `edgeToFace` returns: the faces that were unmarked and belong to a
changed edge are marked and are exactly the faces returned; all other entries
of `faceRegion` stay. -/
theorem edgeToFace_spec (mesh : rMesh) (region : Int) (hr : region ≠ -1)
    (changedEdges : List Nat) (faceRegion : List Int) :
    (edgeToFace mesh region changedEdges faceRegion).2.length = faceRegion.length ∧
    (∀ g, ((∃ e, e ∈ changedEdges ∧ g ∈ mesh.edgeFaces.getD e []) ∧
        faceRegion[g]? = some (-1)) →
      (edgeToFace mesh region changedEdges faceRegion).2[g]? = some region) ∧
    (∀ g, ¬ ((∃ e, e ∈ changedEdges ∧ g ∈ mesh.edgeFaces.getD e []) ∧
        faceRegion[g]? = some (-1)) →
      (edgeToFace mesh region changedEdges faceRegion).2[g]? = faceRegion[g]?) ∧
    (∀ g, g ∈ (edgeToFace mesh region changedEdges faceRegion).1 ↔
      ((∃ e, e ∈ changedEdges ∧ g ∈ mesh.edgeFaces.getD e []) ∧
        faceRegion[g]? = some (-1))) := by
  rw [edgeToFace_eq]
  obtain ⟨hlen, hget1, hget2, ⟨new, hnew, hmem⟩, _⟩ :=
    markStep_foldl (fun _ => true) region hr
      (changedEdges.flatMap (fun e => mesh.edgeFaces.getD e [])) [] faceRegion
  have hiff : ∀ g, ((∃ e, e ∈ changedEdges ∧ g ∈ mesh.edgeFaces.getD e []) ∧
        faceRegion[g]? = some (-1)) ↔
      (g ∈ changedEdges.flatMap (fun e => mesh.edgeFaces.getD e []) ∧
        (fun _ => true) g = true ∧ faceRegion[g]? = some (-1)) := by
    intro g
    rw [List.mem_flatMap]
    simp only [true_and]
  refine ⟨hlen, fun g h => hget1 g ((hiff g).1 h),
    fun g h => hget2 g (fun h2 => h ((hiff g).2 h2)), ?_⟩
  intro g
  rw [hnew, List.nil_append, hmem g]
  exact (hiff g).symm

/-- With no changed faces left, the loop state is a final state. -/
theorem markDone_of_markInv_nil (mesh : rMesh) (hmesh : mesh.consistent)
    (b : List Bool) (seed : Nat) (r : Int) (fz ez : List Int)
    (inv : MarkInv mesh b seed r fz ez []) : MarkDone mesh b seed r fz := by
  refine ⟨inv.lenF, inv.seedMarked, inv.sound, ?_⟩
  rintro f g hf ⟨e, hef, heg, hb⟩
  have hez := inv.faceDone f hf (List.not_mem_nil f) e hef hb
  exact (inv.edgeDone e hez).2 g (hmesh.1 g e heg).2

/-- The loop of `markZone` ends: started in a loop state with more rounds than
unmarked edges, it reaches one of its two `break`s, and the `faceZone` it ends
with is a final state. -/
theorem markZoneLoop_spec (mesh : rMesh) (hmesh : mesh.consistent) (b : List Bool)
    (seed : Nat) (r : Int) (hr : r ≠ -1) :
    ∀ (fuel : Nat) (cf : List Nat) (fz ez : List Int),
      MarkInv mesh b seed r fz ez cf → ez.count (-1) < fuel →
      ∃ res, markZoneLoop mesh b r fuel cf fz ez = some res ∧
        MarkDone mesh b seed r res := by
  intro fuel
  induction fuel with
  | zero =>
    intro cf fz ez _ h
    omega
  | succ fuel ih =>
    intro cf fz ez inv hfuel
    have hrsome : (some r : Option Int) ≠ some (-1) := fun h => hr (Option.some.inj h)
    obtain ⟨hElen, hEget1, hEget2, hEmem, hEcount⟩ := faceToEdge_spec mesh b r hr cf ez
    simp only [markZoneLoop]
    generalize faceToEdge mesh b r cf ez = R at hElen hEget1 hEget2 hEmem hEcount ⊢
    have hedgeAfter : ∀ f, fz[f]? = some r → ∀ e, e ∈ mesh.faceEdges.getD f [] →
        b.getD e false = false → R.2[e]? = some r := by
      intro f hf e he hb
      by_cases hN : (∃ f, f ∈ cf ∧ e ∈ mesh.faceEdges.getD f []) ∧
          b.getD e false = false ∧ ez[e]? = some (-1)
      · exact hEget1 e hN
      · rw [hEget2 e hN]
        by_cases hfc : f ∈ cf
        · have helt : e < ez.length := by
            rw [inv.lenE]
            exact (hmesh.1 f e he).1
          have hsome : ez[e]? = some ez[e] := List.getElem?_eq_getElem helt
          rcases inv.valE e _ hsome with hv | hv
          · rw [hsome, hv]
          · exact absurd ⟨⟨f, hfc, he⟩, hb, by rw [hsome, hv]⟩ hN
        · exact inv.faceDone f hf hfc e he hb
    by_cases hempty : R.1.isEmpty = true
    · rw [if_pos hempty]
      refine ⟨fz, rfl, ⟨inv.lenF, inv.seedMarked, inv.sound, ?_⟩⟩
      rintro f g hf ⟨e, hef, heg, hb⟩
      have hnil : R.1 = [] := List.isEmpty_iff.1 hempty
      have hez : ez[e]? = some r := by
        have h1 := hedgeAfter f hf e hef hb
        by_cases hN : (∃ f, f ∈ cf ∧ e ∈ mesh.faceEdges.getD f []) ∧
            b.getD e false = false ∧ ez[e]? = some (-1)
        · have hin : e ∈ R.1 := (hEmem e).2 hN
          rw [hnil] at hin
          cases hin
        · rw [hEget2 e hN] at h1
          exact h1
      exact (inv.edgeDone e hez).2 g (hmesh.1 g e heg).2
    · rw [if_neg hempty]
      obtain ⟨hFlen, hFget1, hFget2, hFmem⟩ := edgeToFace_spec mesh r hr R.1 fz
      generalize edgeToFace mesh r R.1 fz = Q at hFlen hFget1 hFget2 hFmem ⊢
      have hkeep : ∀ g : Nat, fz[g]? = some r → Q.2[g]? = some r := by
        intro g hg
        rw [hFget2 g (by
          rintro ⟨_, h⟩
          rw [hg] at h
          exact hrsome h)]
        exact hg
      have inv2 : MarkInv mesh b seed r Q.2 R.2 Q.1 := by
        refine ⟨hFlen.trans inv.lenF, hElen.trans inv.lenE, hkeep seed inv.seedMarked,
          ?_, ?_, ?_, ?_, ?_, ?_⟩
        · intro f hf
          by_cases hN : (∃ e, e ∈ R.1 ∧ f ∈ mesh.edgeFaces.getD e []) ∧ fz[f]? = some (-1)
          · obtain ⟨⟨e, heR, hfe⟩, _⟩ := hN
            obtain ⟨⟨f0, hf0, he0⟩, hb, _⟩ := (hEmem e).1 heR
            exact Relation.ReflTransGen.tail (inv.sound f0 (inv.changedMarked f0 hf0))
              ⟨e, he0, (hmesh.2 e f hfe).2, hb⟩
          · rw [hFget2 f hN] at hf
            exact inv.sound f hf
        · intro e he
          have hb : b.getD e false = false ∧
              (e ∉ R.1 → ∀ g, g ∈ mesh.edgeFaces.getD e [] → fz[g]? = some r) := by
            by_cases hN : (∃ f, f ∈ cf ∧ e ∈ mesh.faceEdges.getD f []) ∧
                b.getD e false = false ∧ ez[e]? = some (-1)
            · exact ⟨hN.2.1, fun h => absurd ((hEmem e).2 hN) h⟩
            · rw [hEget2 e hN] at he
              exact ⟨(inv.edgeDone e he).1, fun _ => (inv.edgeDone e he).2⟩
          refine ⟨hb.1, fun g hg => ?_⟩
          by_cases heR : e ∈ R.1
          · have hglt : g < fz.length := by
              rw [inv.lenF]
              exact (hmesh.2 e g hg).1
            have hsome : fz[g]? = some fz[g] := List.getElem?_eq_getElem hglt
            rcases inv.valF g _ hsome with hv | hv
            · exact hkeep g (by rw [hsome, hv])
            · exact hFget1 g ⟨⟨e, heR, hg⟩, by rw [hsome, hv]⟩
          · exact hkeep g (hb.2 heR g hg)
        · intro f hf hfc e he hbe
          have hN : ¬ ((∃ e, e ∈ R.1 ∧ f ∈ mesh.edgeFaces.getD e []) ∧
              fz[f]? = some (-1)) := fun h => hfc ((hFmem f).2 h)
          rw [hFget2 f hN] at hf
          exact hedgeAfter f hf e he hbe
        · intro f v hv
          by_cases hN : (∃ e, e ∈ R.1 ∧ f ∈ mesh.edgeFaces.getD e []) ∧ fz[f]? = some (-1)
          · rw [hFget1 f hN] at hv
            exact Or.inl (Option.some.inj hv).symm
          · rw [hFget2 f hN] at hv
            exact inv.valF f v hv
        · intro e v hv
          by_cases hN : (∃ f, f ∈ cf ∧ e ∈ mesh.faceEdges.getD f []) ∧
              b.getD e false = false ∧ ez[e]? = some (-1)
          · rw [hEget1 e hN] at hv
            exact Or.inl (Option.some.inj hv).symm
          · rw [hEget2 e hN] at hv
            exact inv.valE e v hv
        · intro f hf
          exact hFget1 f ((hFmem f).1 hf)
      by_cases hempty2 : Q.1.isEmpty = true
      · rw [if_pos hempty2]
        have hnil : Q.1 = [] := List.isEmpty_iff.1 hempty2
        rw [hnil] at inv2
        exact ⟨Q.2, rfl, markDone_of_markInv_nil mesh hmesh b seed r Q.2 R.2 inv2⟩
      · rw [if_neg hempty2]
        apply ih Q.1 Q.2 R.2 inv2
        have hpos : 0 < R.1.length := by
          cases hR1 : R.1 with
          | nil => rw [hR1] at hempty; exact absurd rfl hempty
          | cons a l => simp
        omega

/-- The flags `protectedEdge` built in `markFaces`: an edge is flagged exactly
when it is listed (and is a valid label). -/
theorem protectedEdge_getD (protectedEdges : List Nat) :
    ∀ (acc : List Bool) (e : Nat),
      (protectedEdges.foldl (fun acc edgeI => acc.set edgeI true) acc).getD e false
          = true ↔
        ((e ∈ protectedEdges ∧ e < acc.length) ∨ acc.getD e false = true) := by
  induction protectedEdges with
  | nil =>
    intro acc e
    simp
  | cons x xs ih =>
    intro acc e
    rw [List.foldl_cons, ih (acc.set x true) e, List.length_set,
      List.getD_eq_getElem?_getD, List.getD_eq_getElem?_getD, List.getElem?_set]
    by_cases hxe : x = e
    · subst hxe
      by_cases hlt : x < acc.length
      · simp [hlt]
      · have hnone : acc[x]? = none := List.getElem?_eq_none (by omega)
        simp [hlt, hnone]
    · have hex : ¬ e = x := fun h => hxe h.symm
      simp [hxe, hex]

/-- The state in which `markZone` enters its loop is a loop state. -/
theorem markInv_init (mesh : rMesh) (b : List Bool) (seed : Nat) (r : Int)
    (hr : r ≠ -1) (hseed : seed < mesh.size) :
    MarkInv mesh b seed r ((List.replicate mesh.size (-1)).set seed r)
      (List.replicate mesh.nEdges (-1)) [seed] := by
  have hget : ∀ f : Nat, ((List.replicate mesh.size (-1 : Int)).set seed r)[f]?
      = if seed = f then some r else (List.replicate mesh.size (-1 : Int))[f]? :=
    fun f => getElem?_set_of_lt _ seed f r (by simpa using hseed)
  have hrep : ∀ (n f : Nat) (v : Int), (List.replicate n (-1 : Int))[f]? = some v →
      v = -1 := by
    intro n f v h
    rw [List.getElem?_replicate] at h
    by_cases hlt : f < n
    · rw [if_pos hlt] at h
      exact (Option.some.inj h).symm
    · rw [if_neg hlt] at h
      cases h
  have hseedMarked : ((List.replicate mesh.size (-1 : Int)).set seed r)[seed]? = some r := by
    rw [hget seed, if_pos rfl]
  have honly : ∀ f : Nat, ((List.replicate mesh.size (-1 : Int)).set seed r)[f]? = some r →
      f = seed := by
    intro f hf
    rw [hget f] at hf
    by_cases hsf : seed = f
    · exact hsf.symm
    · rw [if_neg hsf] at hf
      exact absurd (hrep _ _ _ hf) hr
  refine ⟨by simp, by simp [rMesh.nEdges], hseedMarked, ?_, ?_, ?_, ?_, ?_, ?_⟩
  · intro f hf
    rw [honly f hf]
  · intro e he
    exact absurd (hrep _ _ _ he) hr
  · intro f hf hfc
    exact absurd (List.mem_singleton.2 (honly f hf)) hfc
  · intro f v hv
    rw [hget f] at hv
    by_cases hsf : seed = f
    · rw [if_pos hsf] at hv
      exact Or.inl (Option.some.inj hv).symm
    · rw [if_neg hsf] at hv
      exact Or.inr (hrep _ _ _ hv)
  · intro e v hv
    exact Or.inr (hrep _ _ _ hv)
  · intro f hf
    rw [List.mem_singleton.1 hf]
    exact hseedMarked

/-- The last loop of `markFaces`: `visited` gets one entry per face, true
exactly where the zone of the face is 0. -/
theorem visited_spec (cz : List Int) (visited : List Bool) (n : Nat)
    (hlen : cz.length = n) :
    (forLoop 0 cz.length
        (fun facei acc => acc.set facei (decide (cz.getD facei 0 = 0)))
        (setSize visited n false)).length = n ∧
    ∀ f : Nat, (forLoop 0 cz.length
        (fun facei acc => acc.set facei (decide (cz.getD facei 0 = 0)))
        (setSize visited n false))[f]? = some true ↔ cz[f]? = some 0 := by
  have hsize : (setSize visited n false).length = n := by
    simp only [setSize, List.length_append, List.length_take, List.length_replicate]
    omega
  have h1len := forLoop_set_length (fun i => decide (cz.getD i 0 = 0)) 0 cz.length 0
    (setSize visited n false)
  have h1 := forLoop_set_getElem? (fun i => decide (cz.getD i 0 = 0)) 0 cz.length 0
    (setSize visited n false)
  simp only [Nat.sub_zero, Nat.add_zero, Nat.zero_add] at h1 h1len
  simp only [forLoop, Nat.sub_zero]
  refine ⟨h1len.trans hsize, fun f => ?_⟩
  rw [h1 f (Nat.le_refl 0), hsize, hlen]
  by_cases hf : f < n
  · have hc : 0 ≤ f ∧ f < n ∧ f < n := ⟨Nat.zero_le _, hf, hf⟩
    have hfl : f < cz.length := by omega
    rw [if_pos hc]
    simp [List.getD_eq_getElem?_getD, List.getElem?_eq_getElem hfl]
  · have hc : ¬ (0 ≤ f ∧ f < n ∧ f < n) := fun h => hf h.2.1
    rw [if_neg hc, List.getElem?_eq_none (by omega), List.getElem?_eq_none (by omega)]
    simp

/-- The sample strip has consistent addressing. -/
theorem sampleStrip_consistent : sampleStrip.consistent := by
  constructor
  · intro f e h
    rcases f with _ | _ | _ | _ | f <;>
      simp [sampleStrip, rMesh.nEdges] at h ⊢ <;>
      rcases h with rfl | rfl <;> simp
  · intro e f h
    rcases e with _ | _ | _ | _ | _ | e <;>
      simp [sampleStrip, rMesh.size] at h ⊢ <;>
      (try rcases h with rfl | rfl) <;> simp

/-- C11: on a surface mesh with consistent face-edge addressing, a valid seed
face and valid protected edge labels, `markFaces(protectedEdges, seedFacei,
visited)` returns (the loop of `markZone` reaches a `break` within
`nEdges + 1` rounds, so any larger bound on the rounds gives the result);
afterwards `visited` has one entry per face of the surface mesh, and
`visited[f]` is true iff there is a sequence of faces from `seedFacei` to `f`
in which each consecutive pair shares an edge that is not in `protectedEdges`;
in particular `visited[seedFacei]` is true. -/
theorem markFaces_marks_reachable (fuel : Nat) (mesh : rMesh)
    (protectedEdges : List Nat) (seedFacei : Nat) (visited : List Bool)
    (hmesh : mesh.consistent) (hseed : seedFacei < mesh.size)
    (hprot : ∀ e, e ∈ protectedEdges → e < mesh.nEdges)
    (hfuel : mesh.nEdges < fuel) :
    ∃ visited1, markFaces fuel mesh protectedEdges seedFacei visited = some visited1 ∧
      visited1.length = mesh.size ∧
      (∀ f : Nat, visited1[f]? = some true ↔
        ∃ path : List Nat,
          List.Chain (sharesFreeEdge mesh protectedEdges) seedFacei path ∧
          (seedFacei :: path).getLast (List.cons_ne_nil _ _) = f) ∧
      visited1[seedFacei]? = some true := by
  have hpe : ∀ e, e < mesh.nEdges →
      ((protectedEdges.foldl (fun acc edgeI => acc.set edgeI true)
          (List.replicate mesh.nEdges false)).getD e false = false ↔
        e ∉ protectedEdges) := by
    intro e he
    have h := protectedEdge_getD protectedEdges (List.replicate mesh.nEdges false) e
    have hrep : ¬ (List.replicate mesh.nEdges false).getD e false = true := by
      simp [List.getD_eq_getElem?_getD, List.getElem?_replicate, he]
    rw [List.length_replicate] at h
    constructor
    · intro hfalse hin
      have := h.2 (Or.inl ⟨hin, he⟩)
      rw [hfalse] at this
      cases this
    · intro hnot
      cases hval : (protectedEdges.foldl (fun acc edgeI => acc.set edgeI true)
          (List.replicate mesh.nEdges false)).getD e false with
      | false => rfl
      | true =>
        rcases h.1 hval with ⟨hin, _⟩ | hr
        · exact absurd hin hnot
        · exact absurd hr hrep
  simp only [markFaces, markZone]
  generalize protectedEdges.foldl (fun acc edgeI => acc.set edgeI true)
    (List.replicate mesh.nEdges false) = pe at hpe ⊢
  have hrel : ∀ f g, freeStep mesh pe f g ↔ sharesFreeEdge mesh protectedEdges f g := by
    intro f g
    constructor
    · rintro ⟨e, hef, heg, hb⟩
      exact ⟨e, hef, heg, (hpe e (hmesh.1 f e hef).1).1 hb⟩
    · rintro ⟨e, hef, heg, hb⟩
      exact ⟨e, hef, heg, (hpe e (hmesh.1 f e hef).1).2 hb⟩
  have hcount : (List.replicate mesh.nEdges (-1 : Int)).count (-1) = mesh.nEdges :=
    List.count_replicate_self _ _
  obtain ⟨res, hres, done⟩ :=
    markZoneLoop_spec mesh hmesh pe seedFacei 0 (by decide) fuel [seedFacei]
      ((List.replicate mesh.size (-1)).set seedFacei 0)
      (List.replicate mesh.nEdges (-1))
      (markInv_init mesh pe seedFacei 0 (by decide) hseed)
      (by rw [hcount]; exact hfuel)
  obtain ⟨hvlen, hviff⟩ := visited_spec res visited mesh.size done.lenF
  have hreach : ∀ f : Nat, res[f]? = some 0 ↔
      Relation.ReflTransGen (sharesFreeEdge mesh protectedEdges) seedFacei f := by
    intro f
    constructor
    · intro h
      exact Relation.ReflTransGen.mono (fun a b hab => (hrel a b).1 hab) (done.sound f h)
    · intro h
      induction h with
      | refl => exact done.seedMarked
      | tail _ hbc ih => exact done.closed _ _ ih ((hrel _ _).2 hbc)
  rw [hres]
  refine ⟨_, rfl, hvlen, fun f => ?_, ?_⟩
  · rw [hviff f, hreach f]
    constructor
    · intro h
      exact List.exists_chain_of_relationReflTransGen h
    · rintro ⟨path, hchain, hlast⟩
      exact List.relationReflTransGen_of_exists_chain path hchain hlast
  · rw [hviff seedFacei]
    exact done.seedMarked

/-- C11 on the sample strip with edge 1 protected, seed face 0 and six rounds:
the call returns, and what it returns has the stated properties. -/
theorem markFaces_marks_reachable_witness :
    ∃ visited1, markFaces 6 sampleStrip [1] 0 [] = some visited1 ∧
      visited1.length = sampleStrip.size ∧
      (∀ f : Nat, visited1[f]? = some true ↔
        ∃ path : List Nat,
          List.Chain (sharesFreeEdge sampleStrip [1]) 0 path ∧
          (0 :: path).getLast (List.cons_ne_nil _ _) = f) ∧
      visited1[0]? = some true :=
  markFaces_marks_reachable 6 sampleStrip [1] 0 [] sampleStrip_consistent
    (by decide) (by decide) (by decide)

/-- On the sample strip with edge 1 protected, the faces marked from face 0
are 0 and 1; with nothing protected all four faces are marked. -/
theorem markFaces_sample :
    markFaces 6 sampleStrip [1] 0 [] = some [true, true, false, false] ∧
    markFaces 6 sampleStrip [] 0 [] = some [true, true, true, true] :=
  ⟨rfl, rfl⟩

end repatchMesh

end Foam
